import Mathlib

/-!
Verification of the sejm-analyzer analytics core against its specification.

The Python source (src/formulas.py, src/analytics.py, src/repository.py,
app/repositories/common/cache.py, app/services/voting/analytics.py) is
embedded shallowly:

* a Python dict `party -> seats` becomes an association list
  `List (String × ℕ)` with unique keys (dict keys are unique, seat counts
  are SQL COUNT results, hence non-negative);
* Python ints become `ℤ` (or `ℕ` where the source value is a count);
* Python floats become `ℚ`; `round(x, 1)` becomes decimal
  round-half-to-even (`pyRound1`);
* a function that can raise becomes `Option`/`Except`: `none`/`.error`
  models the raised exception.
-/

namespace SejmAnalyzer

/-- `seats[p]` lookup: the seat count of party `p` in the association list.
All call sites in the source look up keys that are present, so the `getD 0`
default is never exercised by the theorems below. -/
def seatsOf (seats : List (String × ℕ)) (p : String) : ℕ :=
  ((seats.find? (fun q => q.1 == p)).map Prod.snd).getD 0

/-- The pivotal party of one ordering (`formulas.shapley_shubik`, inner
loop): walk the ordering accumulating seats; the first party whose
inclusion makes the running total reach `quota` is pivotal. `c` is the
running total `cumsum`. -/
def pivotal (seats : List (String × ℕ)) (quota : ℤ) : List String → ℤ → Option String
  | [], _ => none
  | p :: rest, c =>
      if c < quota ∧ quota ≤ c + (seatsOf seats p : ℤ) then some p
      else pivotal seats quota rest (c + (seatsOf seats p : ℤ))

/-- Number of orderings of `parties` in which `p` is pivotal
(`counts[p]` in `formulas.shapley_shubik`; `itertools.permutations`
enumerates every ordering exactly once, as `List.permutations'` does). -/
def pivotCount (seats : List (String × ℕ)) (quota : ℤ) (parties : List String)
    (p : String) : ℕ :=
  parties.permutations'.countP (fun perm => decide (pivotal seats quota perm 0 = some p))

/-- `formulas.shapley_shubik`: pivot count over n!, with the n ≤ 1 edge
cases of the source. -/
def shapley_shubik (seats : List (String × ℕ)) (quota : ℤ) : List (String × ℚ) :=
  let parties := seats.map Prod.fst
  if parties.length = 0 then []
  else if parties.length = 1 then [(parties.headI, 1)]
  else
    parties.map (fun p =>
      (p, (pivotCount seats quota parties p : ℚ) / (Nat.factorial parties.length : ℚ)))

/-- All subsets of a list of parties. The source enumerates
`combinations(parties, r)` for every size `r`; the multiset of subsets
enumerated is the same. -/
def subsets : List String → List (List String)
  | [] => [[]]
  | a :: l => subsets l ++ (subsets l).map (a :: ·)

/-- The contribution of one coalition to `swings[p]` in `formulas.banzhaf`:
1 if `p` swings that coalition (by membership or by joining), else 0. -/
def swingTerm (seats : List (String × ℕ)) (quota : ℤ) (p : String)
    (coal : List String) : ℕ :=
  let cv : ℤ := ((coal.map (seatsOf seats)).sum : ℕ)
  if p ∈ coal then
    if cv ≥ quota ∧ cv - (seatsOf seats p : ℤ) < quota then 1 else 0
  else
    if cv < quota ∧ quota ≤ cv + (seatsOf seats p : ℤ) then 1 else 0

/-- `swings[p]` in `formulas.banzhaf`: total swing count of `p` over all
coalitions. -/
def swingCount (seats : List (String × ℕ)) (quota : ℤ) (parties : List String)
    (p : String) : ℕ :=
  ((subsets parties).map (swingTerm seats quota p)).sum

/-- Membership-only swing count: clause (a) of the swing test only
(winning coalitions containing `p` that lose when `p` leaves). -/
def memSwingTerm (seats : List (String × ℕ)) (quota : ℤ) (p : String)
    (coal : List String) : ℕ :=
  let cv : ℤ := ((coal.map (seatsOf seats)).sum : ℕ)
  if p ∈ coal then
    if cv ≥ quota ∧ cv - (seatsOf seats p : ℤ) < quota then 1 else 0
  else 0

/-- Total membership-swing count of `p`. -/
def memSwingCount (seats : List (String × ℕ)) (quota : ℤ) (parties : List String)
    (p : String) : ℕ :=
  ((subsets parties).map (memSwingTerm seats quota p)).sum

/-- Non-membership swing count: clause (b) of the swing test only (losing
coalitions not containing `p` that win when `p` joins). -/
def nonmemSwingTerm (seats : List (String × ℕ)) (quota : ℤ) (p : String)
    (coal : List String) : ℕ :=
  let cv : ℤ := ((coal.map (seatsOf seats)).sum : ℕ)
  if p ∈ coal then 0
  else if cv < quota ∧ quota ≤ cv + (seatsOf seats p : ℤ) then 1 else 0

/-- Total non-membership swing count of `p`. -/
def nonmemSwingCount (seats : List (String × ℕ)) (quota : ℤ) (parties : List String)
    (p : String) : ℕ :=
  ((subsets parties).map (nonmemSwingTerm seats quota p)).sum

/-- `sum(swings.values())` in `formulas.banzhaf`. -/
def swingTotal (seats : List (String × ℕ)) (quota : ℤ) (parties : List String) : ℕ :=
  (parties.map (fun p => swingCount seats quota parties p)).sum

/-- `sum(swings.values()) or 1`: Python `or` falls through to 1 exactly
when the sum is 0 (falsy). -/
def swingTotalOr1 (seats : List (String × ℕ)) (quota : ℤ) (parties : List String) : ℕ :=
  if swingTotal seats quota parties = 0 then 1 else swingTotal seats quota parties

/-- `formulas.banzhaf`: swing counts normalized by the sum of all swing
counts (`total = sum(swings.values()) or 1`). -/
def banzhaf (seats : List (String × ℕ)) (quota : ℤ) : List (String × ℚ) :=
  let parties := seats.map Prod.fst
  if parties.length = 0 then []
  else if parties.length = 1 then [(parties.headI, 1)]
  else
    parties.map (fun p => (p, (swingCount seats quota parties p : ℚ) /
      ((swingTotalOr1 seats quota parties : ℕ) : ℚ)))

/-- Sum of the membership-only swing counts. -/
def memSwingTotal (seats : List (String × ℕ)) (quota : ℤ) (parties : List String) : ℕ :=
  (parties.map (fun p => memSwingCount seats quota parties p)).sum

/-- `memSwingTotal` with the same `or 1` guard. -/
def memSwingTotalOr1 (seats : List (String × ℕ)) (quota : ℤ) (parties : List String) : ℕ :=
  if memSwingTotal seats quota parties = 0 then 1 else memSwingTotal seats quota parties

/-- Variant of `banzhaf` that counts membership swings only, used to state
the refinement claim. -/
def banzhafMemOnly (seats : List (String × ℕ)) (quota : ℤ) : List (String × ℚ) :=
  let parties := seats.map Prod.fst
  if parties.length = 0 then []
  else if parties.length = 1 then [(parties.headI, 1)]
  else
    parties.map (fun p => (p, (memSwingCount seats quota parties p : ℚ) /
      ((memSwingTotalOr1 seats quota parties : ℕ) : ℚ)))

/-- The qualification test of `formulas.min_coalitions`: the combination's
total reaches the quota and removing any one member drops below it. -/
def qualifies (seats : List (String × ℕ)) (quota : ℤ) (combo : List String) : Bool :=
  let total : ℕ := (combo.map (seatsOf seats)).sum
  decide ((total : ℤ) ≥ quota) &&
    combo.all (fun p => decide ((total : ℤ) - (seatsOf seats p : ℤ) < quota))

/-- The triples appended for one size loop of `formulas.min_coalitions`:
every qualifying combination of each size in `szs`, as
`(frozenset-as-list, total, surplus)`. -/
def coalitionsOfSizes (seats : List (String × ℕ)) (quota : ℤ) (base : List String)
    (szs : List ℕ) : List (List String × ℕ × ℤ) :=
  szs.flatMap (fun size =>
    ((List.sublistsLen size base).filter (qualifies seats quota)).map
      (fun combo => (combo, (combo.map (seatsOf seats)).sum,
        ((combo.map (seatsOf seats)).sum : ℤ) - quota)))

/-- Python `max(parties, key=lambda p: seats[p])`: first party attaining
the maximal seat count; `none` when the list is empty (Python raises
`ValueError`). -/
def pyMaxBySeats (seats : List (String × ℕ)) : List String → Option String
  | [] => none
  | p :: rest =>
      some (rest.foldl (fun best x => if seatsOf seats x > seatsOf seats best then x else best) p)

/-- Deduplication by party-set identity keeping the first occurrence
(the `seen` loop of `formulas.min_coalitions`); distinct combinations drawn
in base-list order are equal as sets iff equal as lists. -/
def dedupFirst : List (List String × ℕ × ℤ) → List (List String) →
    List (List String × ℕ × ℤ)
  | [], _ => []
  | x :: xs, seen =>
      if x.1 ∈ seen then dedupFirst xs seen else x :: dedupFirst xs (x.1 :: seen)

/-- Stable insertion into a sorted list: the new element goes in front of
the first element it is `le`-below-or-equal to. -/
def insertSorted {α : Type} (le : α → α → Bool) (x : α) : List α → List α
  | [] => [x]
  | y :: ys => if le x y then x :: y :: ys else y :: insertSorted le x ys

/-- Python `sorted`: a stable sort by the boolean total preorder `le`.
A stable sort is unique, so this produces exactly the list `sorted`
produces for the same key. -/
def sortedBy {α : Type} (le : α → α → Bool) : List α → List α
  | [] => []
  | x :: xs => insertSorted le x (sortedBy le xs)

/-- Sort key of `formulas.min_coalitions`: `(surplus, len(parties))`
lexicographically. -/
def coalitionLE (a b : List String × ℕ × ℤ) : Bool :=
  decide (a.2.2 < b.2.2) || (decide (a.2.2 = b.2.2) && decide (a.1.length ≤ b.1.length))

/-- `formulas.min_coalitions`. `none` models the `ValueError` Python's
`max` raises on an empty seat map; otherwise the result list of
`(parties, seats, surplus)` triples. -/
def min_coalitions (seats : List (String × ℕ)) (quota : ℤ) (max_size : ℕ := 5) :
    Option (List (List String × ℕ × ℤ)) :=
  let parties := seats.map Prod.fst
  let baseSizes := List.range' 1 (min (max_size + 1) (parties.length + 1) - 1)
  let result := coalitionsOfSizes seats quota parties baseSizes
  match pyMaxBySeats seats parties with
  | none => none
  | some largest =>
      let extra :=
        if (seatsOf seats largest : ℤ) ≥ quota then
          let others := parties.filter (fun p => ¬ (p == largest))
          let extraSizes := List.range' 2 (min (max_size + 1) (others.length + 1) - 2)
          coalitionsOfSizes seats quota others extraSizes
        else []
      let sorted := sortedBy coalitionLE (result ++ extra)
      some ((dedupFirst sorted []).take 15)

/-- `formulas.rice_index`. -/
def rice_index (yes no : ℕ) : ℚ :=
  if yes + no = 0 then 0 else ((yes : ℤ) - (no : ℤ)).natAbs / ((yes + no : ℕ) : ℚ)

/-- `formulas.average_rice`. -/
def average_rice (votes : List (ℕ × ℕ)) : ℚ :=
  if votes = [] then 0
  else ((votes.map (fun v => rice_index v.1 v.2)).sum) / (votes.length : ℚ)

/-- The four fields of the dict returned by `formulas.transition_matrix`. -/
structure Trans where
  yes_to_yes : ℚ
  yes_to_no : ℚ
  no_to_yes : ℚ
  no_to_no : ℚ
deriving DecidableEq, Repr

/-- `counts[f][t]` of `formulas.transition_matrix`: occurrences of the
consecutive pair `(f, t)` in the filtered sequence. -/
def transCount (seq : List String) (f t : String) : ℕ :=
  (seq.zip seq.tail).countP (fun x => x.1 == f && x.2 == t)

/-- `sum(counts[f].values())`: occurrences of `f` as the source of a
transition. -/
def transFromCount (seq : List String) (f : String) : ℕ :=
  (seq.zip seq.tail).countP (fun x => x.1 == f)

/-- `prob(f, t)` of `formulas.transition_matrix`. -/
def transProb (seq : List String) (f t : String) : ℚ :=
  if transFromCount seq f = 0 then 0
  else (transCount seq f t : ℚ) / (transFromCount seq f : ℚ)

/-- `formulas.transition_matrix`: filter to YES/NO tokens, all-zero result
for sequences shorter than 2, else the four transition probabilities. -/
def transition_matrix (sequence : List String) : Trans :=
  let seq := sequence.filter (fun v => v == "YES" || v == "NO")
  if seq.length < 2 then ⟨0, 0, 0, 0⟩
  else
    ⟨transProb seq "YES" "YES", transProb seq "YES" "NO",
     transProb seq "NO" "YES", transProb seq "NO" "NO"⟩

/-- Python decimal round-half-to-even to an integer (the behavior of
`round` on an exact value; floats are modelled as exact rationals). -/
def roundHalfEven (q : ℚ) : ℤ :=
  let f := ⌊q⌋
  if q - f < 1/2 then f
  else if q - f > 1/2 then f + 1
  else if f % 2 = 0 then f else f + 1

/-- Python `round(x, 1)`. -/
def pyRound1 (q : ℚ) : ℚ :=
  (roundHalfEven (q * 10) : ℚ) / 10

/-- One row of `analytics_cache` (schema in `src/models` / the
`INSERT OR REPLACE` statements): composite key `(term_id, key)`, payload,
timestamp. The payload type is abstract. -/
structure CacheEntry (α : Type) where
  term_id : ℤ
  key : String
  data : α
  computed_at : ℕ
deriving DecidableEq, Repr

/-- State of one cache handle: the table rows, the handle's read-only
flag, and the current clock (source of `datetime.utcnow()`). -/
structure CacheState (α : Type) where
  rows : List (CacheEntry α)
  read_only : Bool
  now : ℕ
deriving DecidableEq, Repr

namespace CacheRepository

/-- `CacheRepository.get` (app/repositories/common/cache.py): the payload
of the row matching `(term_id, key)`, if any. -/
def get (s : CacheState α) (tid : ℤ) (key : String) : Option α :=
  (s.rows.find? (fun e => e.term_id == tid && e.key == key)).map (fun e => e.data)

/-- `CacheRepository.set`: raises (`.error`) on a read-only handle, else
`INSERT OR REPLACE` on the `(term_id, key)` primary key. -/
def set (s : CacheState α) (tid : ℤ) (key : String) (data : α) :
    Except String (CacheState α) :=
  if s.read_only then Except.error "Cannot write cache in read-only mode"
  else Except.ok { s with rows :=
    (s.rows.filter (fun e => ¬ (e.term_id == tid && e.key == key)) ++
      [⟨tid, key, data, s.now⟩]) }

/-- `CacheRepository.clear`: raises on a read-only handle; else Python
`if term_id:` keeps term-scoped deletion only for a truthy (non-`None`,
non-zero) argument and otherwise deletes every row. -/
def clear (s : CacheState α) (tid : Option ℤ) : Except String (CacheState α) :=
  if s.read_only then Except.error "Cannot clear cache in read-only mode"
  else Except.ok { s with rows :=
    (match tid with
     | some t => if t ≠ 0 then s.rows.filter (fun e => ¬ (e.term_id == t)) else []
     | none => []) }

/-- `CacheRepository.exists`: at least one row for the term. -/
def hasEntries (s : CacheState α) (tid : ℤ) : Bool :=
  s.rows.any (fun e => e.term_id == tid)

end CacheRepository

namespace Repository

/-- `Repository.set_analytics_cache` (src/repository.py): on a read-only
handle it logs a warning and returns with the store untouched — no
exception; otherwise the same upsert as the app-layer cache. -/
def set_analytics_cache (s : CacheState α) (tid : ℤ) (key : String) (data : α) :
    Except String (CacheState α) :=
  if s.read_only then Except.ok s
  else Except.ok { s with rows :=
    (s.rows.filter (fun e => ¬ (e.term_id == tid && e.key == key)) ++
      [⟨tid, key, data, s.now⟩]) }

/-- `Repository.clear_analytics_cache`: on a read-only handle it logs a
warning and returns with the store untouched; otherwise the same truthy
`if term_id:` dispatch as the app-layer cache. -/
def clear_analytics_cache (s : CacheState α) (tid : Option ℤ) :
    Except String (CacheState α) :=
  if s.read_only then Except.ok s
  else Except.ok { s with rows :=
    (match tid with
     | some t => if t ≠ 0 then s.rows.filter (fun e => ¬ (e.term_id == t)) else []
     | none => []) }

end Repository

/-- `VotingAnalytics._get_cached_or_compute`
(app/services/voting/analytics.py): cache hit returns the stored payload
(0 invocations of `compute_fn`); a miss invokes it once and persists the
result. The final component counts the invocations of `f`. -/
def get_cached_or_compute (s : CacheState α) (tid : ℤ) (key : String)
    (f : Unit → α) : Except String (α × CacheState α × ℕ) :=
  match CacheRepository.get s tid key with
  | some v => Except.ok (v, s, 0)
  | none =>
      let r := f ()
      match CacheRepository.set s tid key r with
      | Except.error e => Except.error e
      | Except.ok s1 => Except.ok (r, s1, 1)

/-- One record of `Analytics.power_indices` (the `PowerIndex` dataclass of
src/analytics.py); index fields are stored as percentages rounded to one
decimal. -/
structure PowerIndex where
  party : String
  seats : ℕ
  seats_pct : ℚ
  shapley : ℚ
  banzhaf : ℚ
deriving DecidableEq, Repr

/-- Dict lookup `d[p]` on the association lists returned by
`shapley_shubik` / `banzhaf`. -/
def lookupQ (l : List (String × ℚ)) (p : String) : ℚ :=
  ((l.find? (fun q => q.1 == p)).map Prod.snd).getD 0

/-- `quota = total // 2 + 1` as computed by `Analytics.power_indices`. -/
def piQuota (seats : List (String × ℕ)) : ℤ :=
  ((seats.map Prod.snd).sum / 2 + 1 : ℕ)

/-- The `compute` closure of `Analytics.power_indices`
(src/analytics.py): empty for a zero seat total, else one record per
party with `quota = total // 2 + 1` and percentage-scaled, rounded index
fields. -/
def power_indices_compute (seats : List (String × ℕ)) : List PowerIndex :=
  if (seats.map Prod.snd).sum = 0 then []
  else
    seats.map (fun e =>
      ⟨e.1, e.2, pyRound1 ((e.2 : ℚ) / (((seats.map Prod.snd).sum : ℕ) : ℚ) * 100),
        pyRound1 (lookupQ (shapley_shubik seats (piQuota seats)) e.1 * 100),
        pyRound1 (lookupQ (banzhaf seats (piQuota seats)) e.1 * 100)⟩)

/-- `Analytics.power_indices` after the cache layer: the computed records
sorted descending by the `shapley` field (Python `sorted` with
`reverse=True` is stable). -/
def power_indices (seats : List (String × ℕ)) : List PowerIndex :=
  sortedBy (fun a b => decide (b.shapley ≤ a.shapley)) (power_indices_compute seats)

/-- One row of `Repository.get_party_decisions`: the fields
`agreement_matrix` reads (`yes`/`no` tallies are unused there). -/
structure Decision where
  voting_id : ℤ
  party : String
  decision : String
deriving DecidableEq, Repr

/-- The keys of `by_voting` in `Analytics.agreement_matrix`, in first-
occurrence order (dict insertion order). -/
def votingIds (decisions : List Decision) : List ℤ :=
  (decisions.map (fun d => d.voting_id)).dedup

/-- `by_voting[vid].get(p)` after the build loop: the last assignment for
`(vid, p)` wins (dict assignment semantics), converted to
`decision == "YES"`. -/
def lookupDecision (decisions : List Decision) (vid : ℤ) (p : String) : Option Bool :=
  ((decisions.filter (fun d => d.voting_id == vid && d.party == p)).getLast?).map
    (fun d => d.decision == "YES")

/-- `party_votes[p]` of `Analytics.agreement_matrix`. -/
def partyVotes (decisions : List Decision) (p : String) : List (Option Bool) :=
  (votingIds decisions).map (fun v => lookupDecision decisions v p)

/-- The `both` list for a pair of parties: votes on which both have a
decision. -/
def bothDecided (pv1 pv2 : List (Option Bool)) : List (Bool × Bool) :=
  (pv1.zip pv2).filterMap (fun ab =>
    match ab with
    | (some a, some b) => some (a, b)
    | _ => none)

/-- One cell of the agreement matrix for two distinct parties. -/
def agreementCell (decisions : List Decision) (p1 p2 : String) : ℚ :=
  let both := bothDecided (partyVotes decisions p1) (partyVotes decisions p2)
  if both = [] then 0
  else pyRound1 ((both.countP (fun ab => ab.1 == ab.2) : ℚ) / (both.length : ℚ) * 100)

/-- One cell of `Analytics.agreement_matrix` including the diagonal. -/
def agreementValue (decisions : List Decision) (p1 p2 : String) : ℚ :=
  if p1 == p2 then 100 else agreementCell decisions p1 p2

/-- The full matrix of `Analytics.agreement_matrix` as a nested
association list over the party list. -/
def agreement_matrix (parties : List String) (decisions : List Decision) :
    List (String × List (String × ℚ)) :=
  parties.map (fun p1 => (p1, parties.map (fun p2 => (p2, agreementValue decisions p1 p2))))

/-! ### Transition matrix lemmas -/

theorem map_fst_zip_tail : (l : List String) → (l.zip l.tail).map Prod.fst = l.dropLast
  | [] => rfl
  | [_] => rfl
  | a :: b :: t => by
      have ih := map_fst_zip_tail (b :: t)
      simpa [List.zip] using ih

theorem transFromCount_eq_count (seq : List String) (f : String) :
    transFromCount seq f = seq.dropLast.count f := by
  unfold transFromCount
  rw [List.count, ← map_fst_zip_tail seq, List.countP_map]
  rfl

theorem countP_pair_split (f : String) :
    (l : List (String × String)) → (∀ x ∈ l, x.2 = "YES" ∨ x.2 = "NO") →
    l.countP (fun x => x.1 == f && x.2 == "YES") +
      l.countP (fun x => x.1 == f && x.2 == "NO") = l.countP (fun x => x.1 == f)
  | [], _ => rfl
  | x :: t, h => by
      have ih := countP_pair_split f t (fun y hy => h y (List.mem_cons_of_mem x hy))
      have hx := h x (List.mem_cons_self x t)
      rcases hx with h2 | h2 <;>
        rcases Bool.eq_false_or_eq_true (x.1 == f) with h1 | h1 <;>
        simp [List.countP_cons, h1, h2, Nat.add_assoc, Nat.add_comm, Nat.add_left_comm] <;>
        omega

theorem transRow_sum_one (seq : List String) (f : String)
    (hall : ∀ x ∈ seq, x = "YES" ∨ x = "NO") (hf : f ∈ seq.dropLast) :
    transProb seq f "YES" + transProb seq f "NO" = 1 := by
  have hT : transFromCount seq f ≠ 0 := by
    rw [transFromCount_eq_count]
    have hpos : 0 < seq.dropLast.count f := List.count_pos_iff.mpr hf
    omega
  have hsplit : transCount seq f "YES" + transCount seq f "NO" = transFromCount seq f := by
    unfold transCount transFromCount
    refine countP_pair_split f (seq.zip seq.tail) ?_
    intro x hx
    exact hall x.2 (List.mem_of_mem_tail (List.of_mem_zip hx).2)
  unfold transProb
  rw [if_neg hT, if_neg hT, div_add_div_same]
  rw [show ((transCount seq f "YES" : ℚ) + (transCount seq f "NO" : ℚ))
        = ((transCount seq f "YES" + transCount seq f "NO" : ℕ) : ℚ) by push_cast; ring,
      hsplit]
  exact div_self (by exact_mod_cast hT)

theorem transRow_zero (seq : List String) (f : String) (hf : f ∉ seq.dropLast) :
    transProb seq f "YES" = 0 ∧ transProb seq f "NO" = 0 := by
  have hT : transFromCount seq f = 0 := by
    rw [transFromCount_eq_count]
    exact List.count_eq_zero.mpr hf
  constructor <;> · unfold transProb; rw [if_pos hT]

theorem mem_filter_yes_no (sequence : List String) (x : String)
    (hx : x ∈ sequence.filter (fun v => v == "YES" || v == "NO")) :
    x = "YES" ∨ x = "NO" := by
  have := (List.mem_filter.mp hx).2
  rcases Bool.or_eq_true _ _ |>.mp this with h | h
  · exact Or.inl (by simpa using h)
  · exact Or.inr (by simpa using h)

/-- C4 counterexample. The decision sequence `["NO", "YES"]` survives the
YES/NO filter unchanged and contains the token YES, yet the yes-row of
`transition_matrix` sums to 0, not 1: YES never occurs as the source of a
transition. This refutes the claim that the yes-row sums to 1 whenever YES
occurs at least once in the filtered sequence. -/
theorem transition_matrix_yes_row_counterexample :
    "YES" ∈ (["NO", "YES"].filter (fun v => v == "YES" || v == "NO")) ∧
      ¬ ((transition_matrix ["NO", "YES"]).yes_to_yes +
          (transition_matrix ["NO", "YES"]).yes_to_no = 1) := by
  constructor
  · decide
  · intro h
    have h1 : (transition_matrix ["NO", "YES"]).yes_to_yes = 0 := by rfl
    have h2 : (transition_matrix ["NO", "YES"]).yes_to_no = 0 := by rfl
    have h0 : (transition_matrix ["NO", "YES"]).yes_to_yes +
        (transition_matrix ["NO", "YES"]).yes_to_no = 0 := by rw [h1, h2]; norm_num
    rw [h0] at h
    exact zero_ne_one h

/-- C4 amended: in the result of `transition_matrix`, the yes-row sums
to 1 exactly when YES occurs as the source of at least one transition,
i.e. occurs at a non-final position of the YES/NO-filtered sequence
(membership in `dropLast`); otherwise both yes-row entries are 0 — and
symmetrically for the no-row. -/
theorem transition_matrix_row_sums (sequence : List String) :
    ("YES" ∈ (sequence.filter (fun v => v == "YES" || v == "NO")).dropLast →
        (transition_matrix sequence).yes_to_yes
          + (transition_matrix sequence).yes_to_no = 1) ∧
      ("YES" ∉ (sequence.filter (fun v => v == "YES" || v == "NO")).dropLast →
        (transition_matrix sequence).yes_to_yes = 0 ∧
          (transition_matrix sequence).yes_to_no = 0) ∧
      ("NO" ∈ (sequence.filter (fun v => v == "YES" || v == "NO")).dropLast →
        (transition_matrix sequence).no_to_yes
          + (transition_matrix sequence).no_to_no = 1) ∧
      ("NO" ∉ (sequence.filter (fun v => v == "YES" || v == "NO")).dropLast →
        (transition_matrix sequence).no_to_yes = 0 ∧
          (transition_matrix sequence).no_to_no = 0) := by
  set seq := sequence.filter (fun v => v == "YES" || v == "NO") with hseq
  set t := transition_matrix sequence with ht0
  have hall : ∀ x ∈ seq, x = "YES" ∨ x = "NO" := fun x hx => mem_filter_yes_no sequence x hx
  by_cases hlen : seq.length < 2
  · have hdrop : seq.dropLast = [] := by
      have : seq.dropLast.length = 0 := by
        rw [List.length_dropLast]; omega
      exact List.length_eq_zero.mp this
    have ht : t = ⟨0, 0, 0, 0⟩ := by
      show transition_matrix sequence = _
      unfold transition_matrix
      rw [if_pos hlen]
    refine ⟨?_, ?_, ?_, ?_⟩ <;> rw [hdrop, ht] <;> simp
  · have ht : t = ⟨transProb seq "YES" "YES", transProb seq "YES" "NO",
        transProb seq "NO" "YES", transProb seq "NO" "NO"⟩ := by
      show transition_matrix sequence = _
      unfold transition_matrix
      rw [if_neg hlen]
    rw [ht]
    exact ⟨fun h => transRow_sum_one seq "YES" hall h,
      fun h => transRow_zero seq "YES" h,
      fun h => transRow_sum_one seq "NO" hall h,
      fun h => transRow_zero seq "NO" h⟩

/-- Witness for the amended C4 theorem at the sequence
`["YES", "YES", "NO"]`: YES and NO both occur (YES as a source, NO only
last), so the yes-row sums to 1 and the no-row is all zero. -/
theorem transition_matrix_row_sums_witness :
    (transition_matrix ["YES", "YES", "NO"]).yes_to_yes +
        (transition_matrix ["YES", "YES", "NO"]).yes_to_no = 1 ∧
      (transition_matrix ["YES", "YES", "NO"]).no_to_yes = 0 ∧
      (transition_matrix ["YES", "YES", "NO"]).no_to_no = 0 := by
  have h := transition_matrix_row_sums ["YES", "YES", "NO"]
  exact ⟨h.1 (by decide), h.2.2.2 (by decide)⟩

/-! ### Cache lemmas -/

theorem cache_get_eq_none_of_no_match {α : Type} (s : CacheState α) (tid : ℤ) (key : String)
    (h : ∀ e ∈ s.rows, (e.term_id == tid && e.key == key) = false) :
    CacheRepository.get s tid key = none := by
  unfold CacheRepository.get
  rw [List.find?_eq_none.mpr]
  · rfl
  · intro e he
    simp [h e he]

/-- C3 counterexample. On a read-only handle, the legacy
`Repository.set_analytics_cache` / `clear_analytics_cache`
(src/repository.py) log a warning and return normally with the store
untouched — they succeed silently instead of failing with a
`WriteNotPermitted`-style error. -/
theorem readonly_silent_counterexample :
    Repository.set_analytics_cache ((⟨[], true, 0⟩ : CacheState ℕ)) 1 "power_indices" 7 =
        Except.ok ⟨[], true, 0⟩ ∧
      Repository.clear_analytics_cache ((⟨[], true, 0⟩ : CacheState ℕ)) (some 1) =
        Except.ok ⟨[], true, 0⟩ := ⟨rfl, rfl⟩

/-- C3 amended: the app-layer `CacheRepository.set`/`clear`
(app/repositories/common/cache.py) do fail fast with a `RuntimeError` on a
read-only handle; the legacy `Repository` variant (src/repository.py)
instead logs a warning and returns silently without modifying the
store. -/
theorem readonly_write_behavior {α : Type} (s : CacheState α) (tid : ℤ) (key : String)
    (d : α) (topt : Option ℤ) (h : s.read_only = true) :
    CacheRepository.set s tid key d = Except.error "Cannot write cache in read-only mode" ∧
      CacheRepository.clear s topt = Except.error "Cannot clear cache in read-only mode" ∧
      Repository.set_analytics_cache s tid key d = Except.ok s ∧
      Repository.clear_analytics_cache s topt = Except.ok s := by
  unfold CacheRepository.set CacheRepository.clear
    Repository.set_analytics_cache Repository.clear_analytics_cache
  rw [h]
  exact ⟨rfl, rfl, rfl, rfl⟩

/-- Witness for the amended C3 theorem at a concrete read-only handle. -/
theorem readonly_write_behavior_witness :
    CacheRepository.set ((⟨[], true, 0⟩ : CacheState ℕ)) 1 "k" 7 =
        Except.error "Cannot write cache in read-only mode" ∧
      Repository.set_analytics_cache ((⟨[], true, 0⟩ : CacheState ℕ)) 1 "k" 7 =
        Except.ok ⟨[], true, 0⟩ :=
  ⟨(readonly_write_behavior ⟨[], true, 0⟩ 1 "k" 7 (some 1) rfl).1,
    (readonly_write_behavior ⟨[], true, 0⟩ 1 "k" 7 (some 1) rfl).2.2.1⟩

/-- C8 counterexample. `clear` dispatches on Python truthiness
(`if term_id:`), so scope `0` falls through to the delete-everything
branch: a writable handle holding one entry for scope 1 loses that entry
on `clear(0)`, refuting "clear(s) leaves every entry of every other scope
unchanged" at s = 0. -/
theorem clear_scope_zero_counterexample :
    CacheRepository.clear ((⟨[⟨1, "k", 7, 0⟩], false, 3⟩ : CacheState ℕ)) (some 0) =
        Except.ok ⟨[], false, 3⟩ ∧
      (⟨1, "k", 7, 0⟩ : CacheEntry ℕ).term_id ≠ 0 := ⟨rfl, by decide⟩

/-- C8 amended: on a writable handle, `clear (some s)` for a **nonzero**
scope s deletes exactly the entries of scope s (the remaining rows are the
original rows with scope s filtered out, every other entry kept unchanged
in order); `clear none` (scope omitted) and `clear (some 0)` delete all
entries. -/
theorem clear_scope_semantics {α : Type} (s : CacheState α) (t : ℤ)
    (hw : s.read_only = false) (ht : t ≠ 0) :
    CacheRepository.clear s (some t) =
        Except.ok { s with rows := s.rows.filter (fun e => ¬ (e.term_id == t)) } ∧
      (∀ e, e ∈ s.rows.filter (fun e => ¬ (e.term_id == t)) ↔
        e ∈ s.rows ∧ e.term_id ≠ t) ∧
      CacheRepository.clear s none = Except.ok { s with rows := ([] : List (CacheEntry α)) } ∧
      CacheRepository.clear s (some 0) =
        Except.ok { s with rows := ([] : List (CacheEntry α)) } := by
  unfold CacheRepository.clear
  rw [hw]
  refine ⟨by simp [ht], ?_, rfl, by simp⟩
  intro e
  simp [List.mem_filter]

/-- Witness for the amended C8 theorem at a concrete writable handle with
entries in scopes 1 and 2. -/
theorem clear_scope_semantics_witness :
    CacheRepository.clear ((⟨[⟨1, "a", 5, 0⟩, ⟨2, "b", 6, 0⟩], false, 3⟩ : CacheState ℕ)) (some 2) =
        Except.ok ⟨[⟨1, "a", 5, 0⟩], false, 3⟩ ∧
      CacheRepository.clear ((⟨[⟨1, "a", 5, 0⟩, ⟨2, "b", 6, 0⟩], false, 3⟩ : CacheState ℕ)) none =
        Except.ok ⟨[], false, 3⟩ := by
  have h := clear_scope_semantics ((⟨[⟨1, "a", 5, 0⟩, ⟨2, "b", 6, 0⟩], false, 3⟩ : CacheState ℕ)) 2
    rfl (by decide)
  exact ⟨h.1, h.2.2.1⟩

theorem clear_some_eq {α : Type} (s : CacheState α) (tid : ℤ) (hw : s.read_only = false) :
    CacheRepository.clear s (some tid) = Except.ok { s with rows :=
      (if tid ≠ 0 then s.rows.filter (fun e => ¬ (e.term_id == tid)) else []) } := by
  unfold CacheRepository.clear
  rw [hw]
  rfl

theorem clear_removes_scope {α : Type} (s : CacheState α) (tid : ℤ) (s2 : CacheState α)
    (h2 : CacheRepository.clear s (some tid) = Except.ok s2) (hw : s.read_only = false) :
    s2.read_only = false ∧ ∀ e ∈ s2.rows, (e.term_id == tid) = false := by
  rw [clear_some_eq s tid hw] at h2
  simp only [Except.ok.injEq] at h2
  subst h2
  refine ⟨hw, ?_⟩
  intro e he
  have he' : e ∈ (if tid ≠ 0 then s.rows.filter (fun e => ¬ (e.term_id == tid))
      else ([] : List (CacheEntry α))) := he
  by_cases h0 : tid ≠ 0
  · rw [if_pos h0] at he'
    have h3 := (List.mem_filter.mp he').2
    simpa using h3
  · rw [if_neg h0] at he'
    simp at he'

/-- C5: with a writable handle and the `(scope, key)` entry initially
absent, the first `getOrCompute` invokes the compute function exactly once
and persists the result; the second returns the cached payload with zero
invocations; and after a `clear` of the scope the next `getOrCompute`
invokes it again. -/
theorem getOrCompute_invokes_once {α : Type} (s : CacheState α) (tid : ℤ) (key : String)
    (f : Unit → α) (hw : s.read_only = false)
    (hmiss : CacheRepository.get s tid key = none) :
    ∃ s1, get_cached_or_compute s tid key f = Except.ok (f (), s1, 1) ∧
      get_cached_or_compute s1 tid key f = Except.ok (f (), s1, 0) ∧
      ∀ s2, CacheRepository.clear s1 (some tid) = Except.ok s2 →
        ∃ s3, get_cached_or_compute s2 tid key f = Except.ok (f (), s3, 1) := by
  refine ⟨{ s with rows :=
    (s.rows.filter (fun e => ¬ (e.term_id == tid && e.key == key)) ++
      [⟨tid, key, f (), s.now⟩]) }, ?_, ?_, ?_⟩
  · unfold get_cached_or_compute
    rw [hmiss]
    unfold CacheRepository.set
    rw [hw]
    rfl
  · have hnone : List.find? (fun (e : CacheEntry α) => e.term_id == tid && e.key == key)
        (s.rows.filter (fun e => ¬ (e.term_id == tid && e.key == key))) = none := by
      apply List.find?_eq_none.mpr
      intro e he
      have h3 := (List.mem_filter.mp he).2
      exact of_decide_eq_true h3
    have hhit : CacheRepository.get (α := α) { s with rows :=
        (s.rows.filter (fun e => ¬ (e.term_id == tid && e.key == key)) ++
          [⟨tid, key, f (), s.now⟩]) } tid key = some (f ()) := by
      unfold CacheRepository.get
      rw [List.find?_append, hnone, Option.none_or,
        List.find?_cons_of_pos _ (by simp)]
      rfl
    unfold get_cached_or_compute
    rw [hhit]
  · intro s2 h2
    obtain ⟨hw2, hrows2⟩ := clear_removes_scope _ tid s2 h2 hw
    have hmiss2 : CacheRepository.get s2 tid key = none := by
      refine cache_get_eq_none_of_no_match s2 tid key ?_
      intro e he
      simp [hrows2 e he]
    refine ⟨{ s2 with rows :=
      (s2.rows.filter (fun e => ¬ (e.term_id == tid && e.key == key)) ++
        [⟨tid, key, f (), s2.now⟩]) }, ?_⟩
    unfold get_cached_or_compute
    rw [hmiss2]
    unfold CacheRepository.set
    rw [hw2]
    rfl

/-- Witness for the C5 theorem at a concrete empty writable cache: one
invocation and a persisted entry on the first call, a hit with zero
invocations on the second, and `clear` removing the entry again. -/
theorem getOrCompute_invokes_once_witness :
    get_cached_or_compute ((⟨[], false, 3⟩ : CacheState ℕ)) 1 "markov" (fun _ => 42)
        = Except.ok (42, ⟨[⟨1, "markov", 42, 3⟩], false, 3⟩, 1) ∧
      get_cached_or_compute ((⟨[⟨1, "markov", 42, 3⟩], false, 3⟩ : CacheState ℕ)) 1
          "markov" (fun _ => 42)
        = Except.ok (42, ⟨[⟨1, "markov", 42, 3⟩], false, 3⟩, 0) ∧
      CacheRepository.clear ((⟨[⟨1, "markov", 42, 3⟩], false, 3⟩ : CacheState ℕ)) (some 1)
        = Except.ok ⟨[], false, 3⟩ := by
  obtain ⟨s1, h1, h2, h3⟩ := getOrCompute_invokes_once ((⟨[], false, 3⟩ : CacheState ℕ))
    1 "markov" (fun _ => 42) rfl rfl
  have hs1 : s1 = (⟨[⟨1, "markov", 42, 3⟩], false, 3⟩ : CacheState ℕ) := by
    have hrfl : get_cached_or_compute ((⟨[], false, 3⟩ : CacheState ℕ)) 1 "markov"
        (fun _ => 42) = Except.ok (42, ⟨[⟨1, "markov", 42, 3⟩], false, 3⟩, 1) := rfl
    rw [h1] at hrfl
    simp only [Except.ok.injEq, Prod.mk.injEq] at hrfl
    exact hrfl.2.1
  subst hs1
  exact ⟨h1, h2, rfl⟩

/-! ### Coalition lemmas -/

theorem insertSorted_perm {α : Type} (le : α → α → Bool) (x : α) :
    ∀ l : List α, List.Perm (insertSorted le x l) (x :: l)
  | [] => List.Perm.refl _
  | y :: ys => by
      unfold insertSorted
      by_cases h : le x y
      · rw [if_pos h]
      · rw [if_neg h]
        exact (List.Perm.cons y (insertSorted_perm le x ys)).trans (List.Perm.swap x y ys)

theorem sortedBy_perm {α : Type} (le : α → α → Bool) :
    ∀ l : List α, List.Perm (sortedBy le l) l
  | [] => List.Perm.refl _
  | x :: xs =>
      (insertSorted_perm le x (sortedBy le xs)).trans (List.Perm.cons x (sortedBy_perm le xs))

theorem sum_map_le_of_sublist (f : String → ℕ) {l1 l2 : List String} (h : List.Sublist l1 l2) :
    (l1.map f).sum ≤ (l2.map f).sum := by
  induction h with
  | slnil => simp
  | cons a h ih => simp only [List.map_cons, List.sum_cons]; omega
  | cons₂ a h ih => simp only [List.map_cons, List.sum_cons]; omega

theorem sum_map_add_le_of_missing (f : String → ℕ) {p : String} {sub combo : List String}
    (h : List.Sublist sub combo) : p ∈ combo → p ∉ sub →
    (sub.map f).sum + f p ≤ (combo.map f).sum := by
  induction h with
  | slnil => intro hp _; cases hp
  | @cons l1 l2 a h ih =>
      intro hp hns
      rcases List.mem_cons.mp hp with rfl | hp2
      · have hs := sum_map_le_of_sublist f h
        simp only [List.map_cons, List.sum_cons]
        omega
      · have := ih hp2 hns
        simp only [List.map_cons, List.sum_cons]
        omega
  | @cons₂ l1 l2 a h ih =>
      intro hp hns
      have hpa : p ≠ a := fun hE => hns (hE ▸ List.mem_cons_self a l1)
      have hp2 : p ∈ l2 := by
        rcases List.mem_cons.mp hp with h3 | h3
        · exact absurd h3 hpa
        · exact h3
      have hns2 : p ∉ l1 := fun hE => hns (List.mem_cons_of_mem a hE)
      have := ih hp2 hns2
      simp only [List.map_cons, List.sum_cons]
      omega

theorem exists_missing_of_proper {sub combo : List String} (h : List.Sublist sub combo)
    (hne : sub ≠ combo) (hnd : combo.Nodup) : ∃ p ∈ combo, p ∉ sub := by
  by_contra hc
  push_neg at hc
  have hsp : List.Subperm combo sub := (List.subperm_of_subset hnd fun p hp => hc p hp)
  exact hne (h.eq_of_length_le hsp.length_le)

theorem sum_lt_of_proper_sublist {seats : List (String × ℕ)} {quota : ℤ} {combo : List String}
    (hnd : combo.Nodup)
    (hmin : ∀ p ∈ combo, (((combo.map (seatsOf seats)).sum : ℕ) : ℤ) -
      (seatsOf seats p : ℤ) < quota)
    {sub : List String} (hsub : List.Sublist sub combo) (hne : sub ≠ combo) :
    (((sub.map (seatsOf seats)).sum : ℕ) : ℤ) < quota := by
  obtain ⟨p, hp, hnp⟩ := exists_missing_of_proper hsub hne hnd
  have h1 := sum_map_add_le_of_missing (seatsOf seats) hsub hp hnp
  have h2 := hmin p hp
  omega

theorem qualifies_spec {seats : List (String × ℕ)} {quota : ℤ} {combo : List String}
    (h : qualifies seats quota combo = true) :
    (((combo.map (seatsOf seats)).sum : ℕ) : ℤ) ≥ quota ∧
      ∀ p ∈ combo, (((combo.map (seatsOf seats)).sum : ℕ) : ℤ) -
        (seatsOf seats p : ℤ) < quota := by
  simp only [qualifies, Bool.and_eq_true, List.all_eq_true, decide_eq_true_eq] at h
  exact ⟨h.1, fun p hp => h.2 p hp⟩

theorem mem_coalitionsOfSizes {seats : List (String × ℕ)} {quota : ℤ} {base : List String}
    {szs : List ℕ} {x : List String × ℕ × ℤ} (h : x ∈ coalitionsOfSizes seats quota base szs) :
    List.Sublist x.1 base ∧ qualifies seats quota x.1 = true ∧
      x.2.1 = (x.1.map (seatsOf seats)).sum ∧
      x.2.2 = ((x.1.map (seatsOf seats)).sum : ℕ) - quota := by
  unfold coalitionsOfSizes at h
  obtain ⟨sz, hsz, hx⟩ := List.mem_flatMap.mp h
  obtain ⟨combo, hcombo, rfl⟩ := List.mem_map.mp hx
  have h1 := List.mem_filter.mp hcombo
  exact ⟨(List.mem_sublistsLen.mp h1.1).1, h1.2, rfl, rfl⟩

theorem dedupFirst_subset : ∀ (l : List (List String × ℕ × ℤ)) (seen),
    dedupFirst l seen ⊆ l
  | [], _ => by intro x hx; cases hx
  | x :: xs, seen => by
      unfold dedupFirst
      by_cases h : x.1 ∈ seen
      · rw [if_pos h]
        exact (dedupFirst_subset xs seen).trans (List.subset_cons_self x xs)
      · rw [if_neg h]
        exact List.cons_subset_cons x (dedupFirst_subset xs (x.1 :: seen))

theorem min_coalitions_mem {seats : List (String × ℕ)} {quota : ℤ} {ms : ℕ}
    {l : List (List String × ℕ × ℤ)} (h : min_coalitions seats quota ms = some l)
    {x : List String × ℕ × ℤ} (hx : x ∈ l) :
    List.Sublist x.1 (seats.map Prod.fst) ∧ qualifies seats quota x.1 = true ∧
      x.2.1 = (x.1.map (seatsOf seats)).sum ∧
      x.2.2 = ((x.1.map (seatsOf seats)).sum : ℕ) - quota := by
  simp only [min_coalitions] at h
  split at h
  · exact absurd h (by simp)
  · simp only [Option.some.injEq] at h
    subst h
    have hx1 := List.take_subset _ _ hx
    have hx2 := dedupFirst_subset _ _ hx1
    have hx3 := (sortedBy_perm coalitionLE _).mem_iff.mp hx2
    rcases List.mem_append.mp hx3 with h4 | h4
    · exact mem_coalitionsOfSizes h4
    · by_cases hc : (seatsOf seats ‹String› : ℤ) ≥ quota
      · rw [if_pos hc] at h4
        have h5 := mem_coalitionsOfSizes h4
        exact ⟨h5.1.trans (List.filter_sublist _), h5.2⟩
      · rw [if_neg hc] at h4
        cases h4

theorem qualifies_false_of_nonpos {seats : List (String × ℕ)} {quota : ℤ} (hq : quota ≤ 0)
    {combo : List String} (hne : combo ≠ []) : qualifies seats quota combo = false := by
  obtain ⟨p, hp⟩ := List.exists_mem_of_ne_nil combo hne
  have hle : seatsOf seats p ≤ (combo.map (seatsOf seats)).sum :=
    List.le_sum_of_mem (List.mem_map_of_mem _ hp)
  simp only [qualifies, Bool.and_eq_false_iff, List.all_eq_false]
  right
  refine ⟨p, hp, ?_⟩
  simp only [decide_eq_true_eq]
  omega

theorem coalitionsOfSizes_nil_of_nonpos {seats : List (String × ℕ)} {quota : ℤ}
    {base : List String} {szs : List ℕ} (hq : quota ≤ 0) (hsz : ∀ sz ∈ szs, 1 ≤ sz) :
    coalitionsOfSizes seats quota base szs = [] := by
  unfold coalitionsOfSizes
  rw [List.flatMap_eq_nil_iff]
  intro sz hszmem
  have hfilter : (List.sublistsLen sz base).filter (qualifies seats quota) = [] := by
    rw [List.filter_eq_nil_iff]
    intro combo hcombo
    have hlen := (List.mem_sublistsLen.mp hcombo).2
    have hne : combo ≠ [] := by
      intro hE
      subst hE
      have := hsz sz hszmem
      simp at hlen
      omega
    simp [qualifies_false_of_nonpos hq hne]
  rw [hfilter]
  rfl

/-- C1 counterexample. On an empty seat map `min_coalitions` does not
return the empty list: `max(parties, key=...)` raises `ValueError` on the
empty party list (modelled by `none`), refuting "empty seat map yields the
empty list and no error". -/
theorem min_coalitions_empty_counterexample :
    min_coalitions ([] : List (String × ℕ)) 5 5 = none ∧
      ¬ (min_coalitions ([] : List (String × ℕ)) 5 5 = some []) :=
  ⟨rfl, fun h => Option.noConfusion h⟩

/-- C1 amended: for a **non-empty** seat map a non-positive quota yields
the empty list and no error; on an empty seat map `min_coalitions` raises
(`ValueError` from `max` on an empty sequence, modelled by `none`) — the
callers guard this case by returning `[]` when the seat total is 0 before
calling. -/
theorem min_coalitions_degenerate (seats : List (String × ℕ)) (quota : ℤ) (ms : ℕ) :
    min_coalitions ([] : List (String × ℕ)) quota ms = none ∧
      (seats ≠ [] → quota ≤ 0 → min_coalitions seats quota ms = some []) := by
  refine ⟨rfl, ?_⟩
  intro hne hq
  obtain ⟨x, xs, rfl⟩ : ∃ x xs, seats = x :: xs := by
    cases seats with
    | nil => exact absurd rfl hne
    | cons x xs => exact ⟨x, xs, rfl⟩
  have hsz1 : ∀ sz ∈ List.range' 1 (min (ms + 1) (((x :: xs).map Prod.fst).length + 1) - 1),
      1 ≤ sz := by
    intro sz hsz
    obtain ⟨i, _, rfl⟩ := List.mem_range'.mp hsz
    omega
  simp only [min_coalitions, pyMaxBySeats, List.map_cons]
  rw [coalitionsOfSizes_nil_of_nonpos hq (by simpa using hsz1), List.nil_append]
  split
  · rw [coalitionsOfSizes_nil_of_nonpos hq ?_]
    · rfl
    · intro sz hsz
      obtain ⟨i, _, rfl⟩ := List.mem_range'.mp hsz
      omega
  · rfl

/-- Witness for the amended C1 theorem: a concrete two-party seat map and
quota 0 produce `some []`. -/
theorem min_coalitions_degenerate_witness :
    min_coalitions [("A", 3), ("B", 2)] (-1) 5 = some [] :=
  (min_coalitions_degenerate [("A", 3), ("B", 2)] (-1) 5).2 (by decide) (by decide)

/-- C6: every triple `(partySet, totalSeats, surplus)` that
`min_coalitions` returns on a seat map with unique keys and a positive
quota has `totalSeats` equal to the members' seat sum, `totalSeats ≥
quota`, `surplus = totalSeats − quota`, per-member minimality
(`totalSeats − seats[p] < quota`), and consequently every proper subset of
the party set stays below the quota. -/
theorem min_coalitions_sound (seats : List (String × ℕ)) (quota : ℤ) (ms : ℕ)
    (hnd : (seats.map Prod.fst).Nodup) (hq : 1 ≤ quota) :
    ∀ l, min_coalitions seats quota ms = some l → ∀ x ∈ l,
      x.2.1 = (x.1.map (seatsOf seats)).sum ∧
      (x.2.1 : ℤ) ≥ quota ∧
      x.2.2 = (x.2.1 : ℤ) - quota ∧
      (∀ p ∈ x.1, (x.2.1 : ℤ) - (seatsOf seats p : ℤ) < quota) ∧
      (∀ sub, List.Sublist sub x.1 → sub ≠ x.1 →
        ((sub.map (seatsOf seats)).sum : ℤ) < quota) := by
  intro l h x hx
  obtain ⟨hsubl, hqual, hsum, hsur⟩ := min_coalitions_mem h hx
  obtain ⟨hge, hmin⟩ := qualifies_spec hqual
  have hnd2 : x.1.Nodup := hsubl.nodup hnd
  refine ⟨hsum, ?_, ?_, ?_, ?_⟩
  · rw [hsum]; exact hge
  · rw [hsur, hsum]
  · intro p hp
    rw [hsum]
    exact hmin p hp
  · intro sub hs hne
    exact sum_lt_of_proper_sublist hnd2 hmin hs hne

/-- Witness for the C6 theorem: seat map `{A: 2, B: 1}` with quota 2
returns exactly the minimal winning coalition `{A}` with surplus 0; the
theorem's conclusions instantiated at that triple, member `A`, and the
proper subset `[]`. -/
theorem min_coalitions_sound_witness :
    ((2 : ℕ) : ℤ) ≥ 2 ∧ (0 : ℤ) = ((2 : ℕ) : ℤ) - 2 ∧
      ((2 : ℕ) : ℤ) - (seatsOf [("A", 2), ("B", 1)] "A" : ℤ) < 2 ∧
      ((([] : List String).map (seatsOf [("A", 2), ("B", 1)])).sum : ℤ) < 2 := by
  have h := min_coalitions_sound [("A", 2), ("B", 1)] 2 5 (by decide) (by decide)
    [((["A"], 2, 0) : List String × ℕ × ℤ)] rfl ((["A"], 2, 0)) (by decide)
  exact ⟨h.2.1, h.2.2.1, h.2.2.2.1 "A" (by decide),
    h.2.2.2.2 [] (List.nil_sublist _) (by decide)⟩

/-! ### Sum bookkeeping helpers -/

theorem sum_map_add {α β : Type} [AddCommMonoid β] (l : List α) (f g : α → β) :
    (l.map (fun x => f x + g x)).sum = (l.map f).sum + (l.map g).sum := by
  induction l with
  | nil => simp
  | cons a t ih =>
      simp only [List.map_cons, List.sum_cons, ih]
      exact add_add_add_comm _ _ _ _

theorem cast_sum_map {α : Type} (l : List α) (f : α → ℕ) :
    (((l.map f).sum : ℕ) : ℚ) = (l.map (fun x => (f x : ℚ))).sum := by
  induction l with
  | nil => simp
  | cons a t ih => simp [ih]

theorem sum_map_div {α : Type} (l : List α) (f : α → ℚ) (c : ℚ) :
    (l.map (fun x => f x / c)).sum = (l.map f).sum / c := by
  induction l with
  | nil => simp
  | cons a t ih => simp [ih, add_div]

theorem sum_map_indicator_eq_one {l : List String} {q : String} (hnd : l.Nodup)
    (hq : q ∈ l) : (l.map (fun p => if q = p then (1 : ℕ) else 0)).sum = 1 := by
  induction l with
  | nil => cases hq
  | cons a t ih =>
      rcases List.mem_cons.mp hq with rfl | hmem
      · have hqt : q ∉ t := (List.nodup_cons.mp hnd).1
        have hz : (t.map (fun p => if q = p then (1 : ℕ) else 0)).sum = 0 := by
          apply List.sum_eq_zero
          intro x hx
          obtain ⟨p, hp, rfl⟩ := List.mem_map.mp hx
          rw [if_neg]
          intro hE
          exact hqt (hE ▸ hp)
        simp [hz]
      · have hna : q ≠ a := by
          intro hE
          subst hE
          exact (List.nodup_cons.mp hnd).1 hmem
        have ih2 := ih (List.nodup_cons.mp hnd).2 hmem
        simp only [List.map_cons, List.sum_cons, if_neg hna, ih2, Nat.zero_add]

/-! ### Seat lookup lemmas -/

theorem seatsOf_cons_self (e : String × ℕ) (rest : List (String × ℕ)) :
    seatsOf (e :: rest) e.1 = e.2 := by
  unfold seatsOf
  rw [List.find?_cons_of_pos _ (by simp)]
  rfl

theorem seatsOf_cons_ne (e : String × ℕ) (rest : List (String × ℕ)) (p : String)
    (h : p ≠ e.1) : seatsOf (e :: rest) p = seatsOf rest p := by
  unfold seatsOf
  rw [List.find?_cons_of_neg]
  simp only [beq_iff_eq]
  exact fun hE => h hE.symm

theorem sum_seatsOf_keys : ∀ {seats : List (String × ℕ)}, (seats.map Prod.fst).Nodup →
    ((seats.map Prod.fst).map (seatsOf seats)).sum = (seats.map Prod.snd).sum := by
  intro seats
  induction seats with
  | nil => intro _; rfl
  | cons e rest ih =>
      intro hnd
      have hne : e.1 ∉ rest.map Prod.fst := (List.nodup_cons.mp (by simpa using hnd)).1
      have hnd2 : (rest.map Prod.fst).Nodup := (List.nodup_cons.mp (by simpa using hnd)).2
      simp only [List.map_cons, List.sum_cons, seatsOf_cons_self]
      congr 1
      rw [List.map_congr_left, ih hnd2]
      intro p hp
      refine seatsOf_cons_ne e rest p ?_
      intro hE
      exact hne (hE ▸ hp)

/-! ### Pivotal party lemmas -/

theorem pivotal_mem {seats : List (String × ℕ)} {quota : ℤ} :
    ∀ {σ : List String} {c : ℤ} {p : String},
      pivotal seats quota σ c = some p → p ∈ σ := by
  intro σ
  induction σ with
  | nil => intro c p h; cases h
  | cons a t ih =>
      intro c p h
      unfold pivotal at h
      by_cases hc : c < quota ∧ quota ≤ c + (seatsOf seats a : ℤ)
      · rw [if_pos hc] at h
        simp only [Option.some.injEq] at h
        subst h
        exact List.mem_cons_self _ _
      · rw [if_neg hc] at h
        exact List.mem_cons_of_mem _ (ih h)

theorem pivotal_exists {seats : List (String × ℕ)} {quota : ℤ} :
    ∀ (σ : List String) (c : ℤ), c < quota →
      quota ≤ c + (((σ.map (seatsOf seats)).sum : ℕ) : ℤ) →
      ∃ p, pivotal seats quota σ c = some p := by
  intro σ
  induction σ with
  | nil =>
      intro c h1 h2
      simp only [List.map_nil, List.sum_nil, Nat.cast_zero, add_zero] at h2
      omega
  | cons a t ih =>
      intro c h1 h2
      unfold pivotal
      by_cases hc : c < quota ∧ quota ≤ c + (seatsOf seats a : ℤ)
      · rw [if_pos hc]
        exact ⟨a, rfl⟩
      · rw [if_neg hc]
        apply ih (c + (seatsOf seats a : ℤ))
        · push_neg at hc
          exact hc h1
        · simp only [List.map_cons, List.sum_cons] at h2
          push_cast at h2 ⊢
          omega

/-- Double counting: if every element of `L` is assigned exactly one party
of `parties` by `g`, the per-party occurrence counts sum to `L.length`. -/
theorem sum_countP_pick {parties : List String} (hnd : parties.Nodup) {α : Type}
    (g : α → Option String) :
    ∀ L : List α, (∀ σ ∈ L, ∃ q ∈ parties, g σ = some q) →
      (parties.map (fun p => L.countP (fun σ => decide (g σ = some p)))).sum = L.length
  | [], _ => by simp
  | σ :: L2, h => by
      have ih := sum_countP_pick hnd g L2 (fun τ hτ => h τ (List.mem_cons_of_mem _ hτ))
      obtain ⟨q, hq, hgq⟩ := h σ (List.mem_cons_self _ _)
      simp only [List.countP_cons]
      rw [sum_map_add]
      have hcong : parties.map (fun p => if (decide (g σ = some p)) = true then (1 : ℕ) else 0)
          = parties.map (fun p => if q = p then (1 : ℕ) else 0) := by
        apply List.map_congr_left
        intro p _
        rw [hgq]
        simp only [Option.some.injEq, decide_eq_true_eq]
      rw [hcong, sum_map_indicator_eq_one hnd hq, ih]
      simp [Nat.add_comm]

/-- The pivot counts of `formulas.shapley_shubik` over all orderings add
up to n!: every permutation has exactly one pivotal party when
`1 ≤ quota ≤ Σ seats`. -/
theorem sum_pivotCount {seats : List (String × ℕ)} {quota : ℤ}
    (hnd : (seats.map Prod.fst).Nodup) (h1 : 1 ≤ quota)
    (h2 : quota ≤ (((seats.map Prod.snd).sum : ℕ) : ℤ)) :
    ((seats.map Prod.fst).map
        (fun p => pivotCount seats quota (seats.map Prod.fst) p)).sum =
      (seats.map Prod.fst).length.factorial := by
  rw [show (seats.map Prod.fst).length.factorial
        = (seats.map Prod.fst).permutations'.length from by
      rw [← (List.permutations_perm_permutations' (seats.map Prod.fst)).length_eq,
        List.length_permutations]]
  apply sum_countP_pick hnd
  intro σ hσ
  have hperm : List.Perm σ (seats.map Prod.fst) := List.mem_permutations'.mp hσ
  have hsum : ((σ.map (seatsOf seats)).sum : ℕ)
      = (((seats.map Prod.fst).map (seatsOf seats)).sum : ℕ) :=
    (hperm.map (seatsOf seats)).sum_eq
  have hc1 : (0 : ℤ) < quota := by omega
  have hc2 : quota ≤ 0 + (((σ.map (seatsOf seats)).sum : ℕ) : ℤ) := by
    rw [hsum, sum_seatsOf_keys hnd]
    omega
  obtain ⟨p, hp⟩ := pivotal_exists σ 0 hc1 hc2
  exact ⟨p, hperm.mem_iff.mp (pivotal_mem hp), hp⟩

/-- The values of `shapley_shubik` sum to exactly 1 for a non-empty seat
map with unique keys and a reachable quota. -/
theorem shapley_sum {seats : List (String × ℕ)} {quota : ℤ}
    (hnd : (seats.map Prod.fst).Nodup) (hne : seats ≠ [])
    (h1 : 1 ≤ quota) (h2 : quota ≤ (((seats.map Prod.snd).sum : ℕ) : ℤ)) :
    ((shapley_shubik seats quota).map Prod.snd).sum = 1 := by
  have hpne : seats.map Prod.fst ≠ [] := by
    intro hE
    exact hne (List.map_eq_nil_iff.mp hE)
  unfold shapley_shubik
  by_cases hlen1 : (seats.map Prod.fst).length = 1
  · rw [if_neg (by omega), if_pos hlen1]
    simp
  · have hlen0 : (seats.map Prod.fst).length ≠ 0 := by
      intro hE
      exact hpne (List.length_eq_zero.mp hE)
    rw [if_neg hlen0, if_neg hlen1]
    rw [List.map_map]
    have hmapeq : (Prod.snd ∘ fun p =>
        (p, (pivotCount seats quota (seats.map Prod.fst) p : ℚ) /
          ((seats.map Prod.fst).length.factorial : ℚ)))
        = fun p => (pivotCount seats quota (seats.map Prod.fst) p : ℚ) /
          ((seats.map Prod.fst).length.factorial : ℚ) := rfl
    rw [hmapeq, sum_map_div, ← cast_sum_map, sum_pivotCount hnd h1 h2]
    apply div_self
    exact_mod_cast (Nat.factorial_pos _).ne'

/-! ### Banzhaf lemmas -/

theorem subsets_mem_of_sublist : ∀ {coal l : List String},
    List.Sublist coal l → coal ∈ subsets l := by
  intro coal l h
  induction h with
  | slnil => simp [subsets]
  | @cons l1 l2 a h ih =>
      show l1 ∈ subsets l2 ++ (subsets l2).map (a :: ·)
      exact List.mem_append_left _ ih
  | @cons₂ l1 l2 a h ih =>
      show a :: l1 ∈ subsets l2 ++ (subsets l2).map (a :: ·)
      exact List.mem_append_right _ (List.mem_map_of_mem _ ih)

theorem subsets_subset : ∀ {l coal : List String}, coal ∈ subsets l →
    ∀ p ∈ coal, p ∈ l := by
  intro l
  induction l with
  | nil =>
      intro coal h
      simp only [subsets, List.mem_singleton] at h
      subst h
      intro p hp
      cases hp
  | cons a t ih =>
      intro coal h p hp
      rcases List.mem_append.mp h with h2 | h2
      · exact List.mem_cons_of_mem _ (ih h2 p hp)
      · obtain ⟨c2, hc2, rfl⟩ := List.mem_map.mp h2
        rcases List.mem_cons.mp hp with rfl | h3
        · exact List.mem_cons_self _ _
        · exact List.mem_cons_of_mem _ (ih hc2 p h3)

theorem exists_swing_coal {seats : List (String × ℕ)} {quota : ℤ} :
    ∀ (l : List String), l.Nodup → 1 ≤ quota →
      quota ≤ (((l.map (seatsOf seats)).sum : ℕ) : ℤ) →
      ∃ coal p, List.Sublist coal l ∧ p ∈ l ∧ p ∉ coal ∧
        (((coal.map (seatsOf seats)).sum : ℕ) : ℤ) < quota ∧
        quota ≤ (((coal.map (seatsOf seats)).sum : ℕ) : ℤ) + (seatsOf seats p : ℤ) := by
  intro l
  induction l with
  | nil =>
      intro _ h1 h2
      simp only [List.map_nil, List.sum_nil, Nat.cast_zero] at h2
      omega
  | cons a t ih =>
      intro hnd h1 h2
      by_cases hc : quota ≤ (seatsOf seats a : ℤ)
      · refine ⟨[], a, List.nil_sublist _, List.mem_cons_self _ _, List.not_mem_nil a, ?_, ?_⟩
        · simp only [List.map_nil, List.sum_nil, Nat.cast_zero]
          omega
        · simp only [List.map_nil, List.sum_nil, Nat.cast_zero, zero_add]
          exact hc
      · push_neg at hc
        by_cases hrest : quota ≤ (((t.map (seatsOf seats)).sum : ℕ) : ℤ)
        · obtain ⟨coal, p, hsub, hp, hnp, hlt, hle⟩ :=
            ih (List.nodup_cons.mp hnd).2 h1 hrest
          exact ⟨coal, p, List.Sublist.cons a hsub, List.mem_cons_of_mem _ hp,
            hnp, hlt, hle⟩
        · push_neg at hrest
          refine ⟨t, a, List.sublist_cons_self a t, List.mem_cons_self _ _,
            (List.nodup_cons.mp hnd).1, hrest, ?_⟩
          simp only [List.map_cons, List.sum_cons] at h2
          push_cast at h2 ⊢
          omega

theorem swingCount_pos {seats : List (String × ℕ)} {quota : ℤ} {parties : List String}
    (hnd : parties.Nodup) (h1 : 1 ≤ quota)
    (h2 : quota ≤ (((parties.map (seatsOf seats)).sum : ℕ) : ℤ)) :
    ∃ p ∈ parties, 1 ≤ swingCount seats quota parties p := by
  obtain ⟨coal, p, hsub, hp, hnp, hlt, hle⟩ := exists_swing_coal parties hnd h1 h2
  refine ⟨p, hp, ?_⟩
  have hmem := subsets_mem_of_sublist hsub
  have hterm : swingTerm seats quota p coal = 1 := by
    unfold swingTerm
    rw [if_neg hnp, if_pos ⟨hlt, hle⟩]
  calc (1 : ℕ) = swingTerm seats quota p coal := hterm.symm
    _ ≤ ((subsets parties).map (swingTerm seats quota p)).sum :=
        List.le_sum_of_mem (List.mem_map_of_mem _ hmem)

/-- The values of `banzhaf` sum to exactly 1 for a non-empty seat map with
unique keys and a reachable quota: the total swing count is positive, so
the `or 1` guard is inactive and the normalization divides by the exact
total. -/
theorem banzhaf_sum {seats : List (String × ℕ)} {quota : ℤ}
    (hnd : (seats.map Prod.fst).Nodup) (hne : seats ≠ [])
    (h1 : 1 ≤ quota) (h2 : quota ≤ (((seats.map Prod.snd).sum : ℕ) : ℤ)) :
    ((banzhaf seats quota).map Prod.snd).sum = 1 := by
  have hpne : seats.map Prod.fst ≠ [] := by
    intro hE
    exact hne (List.map_eq_nil_iff.mp hE)
  have h2' : quota ≤ ((((seats.map Prod.fst).map (seatsOf seats)).sum : ℕ) : ℤ) := by
    rw [sum_seatsOf_keys hnd]
    exact h2
  unfold banzhaf
  by_cases hlen1 : (seats.map Prod.fst).length = 1
  · rw [if_neg (by omega), if_pos hlen1]
    simp
  · have hlen0 : (seats.map Prod.fst).length ≠ 0 := by
      intro hE
      exact hpne (List.length_eq_zero.mp hE)
    rw [if_neg hlen0, if_neg hlen1]
    obtain ⟨p0, hp0, hpos⟩ := swingCount_pos hnd h1 h2'
    have htpos : 1 ≤ ((seats.map Prod.fst).map
        (fun p => swingCount seats quota (seats.map Prod.fst) p)).sum :=
      le_trans hpos (List.le_sum_of_mem (List.mem_map_of_mem _ hp0))
    have hT : swingTotalOr1 seats quota (seats.map Prod.fst)
        = ((seats.map Prod.fst).map
          (fun p => swingCount seats quota (seats.map Prod.fst) p)).sum := by
      unfold swingTotalOr1 swingTotal
      rw [if_neg (by omega)]
    rw [List.map_map]
    have hmapeq : (Prod.snd ∘ fun p =>
        (p, (swingCount seats quota (seats.map Prod.fst) p : ℚ) /
          ((swingTotalOr1 seats quota (seats.map Prod.fst) : ℕ) : ℚ)))
        = fun p => (swingCount seats quota (seats.map Prod.fst) p : ℚ) /
          ((swingTotalOr1 seats quota (seats.map Prod.fst) : ℕ) : ℚ) := rfl
    rw [hmapeq, sum_map_div, ← cast_sum_map, hT]
    apply div_self
    exact_mod_cast (by omega : ((seats.map Prod.fst).map
      (fun p => swingCount seats quota (seats.map Prod.fst) p)).sum ≠ 0)

/-- C7: for every non-empty seat map with unique keys (non-negative
counts by type) and every quota q with 1 ≤ q ≤ total seats, the values of
`shapley_shubik` sum to exactly 1 and the values of `banzhaf` sum to
exactly 1 (modelled in exact rational arithmetic, this implies the
claimed ±1e-6 bound). -/
theorem power_index_values_sum_to_one (seats : List (String × ℕ)) (quota : ℤ)
    (hnd : (seats.map Prod.fst).Nodup) (hne : seats ≠ [])
    (h1 : 1 ≤ quota) (h2 : quota ≤ (((seats.map Prod.snd).sum : ℕ) : ℤ)) :
    ((shapley_shubik seats quota).map Prod.snd).sum = 1 ∧
      ((banzhaf seats quota).map Prod.snd).sum = 1 :=
  ⟨shapley_sum hnd hne h1 h2, banzhaf_sum hnd hne h1 h2⟩

/-- Witness for the C7 theorem at the seat map `{A: 2, B: 1, C: 1}` with
quota 3. -/
theorem power_index_values_sum_to_one_witness :
    ((shapley_shubik [("A", 2), ("B", 1), ("C", 1)] 3).map Prod.snd).sum = 1 ∧
      ((banzhaf [("A", 2), ("B", 1), ("C", 1)] 3).map Prod.snd).sum = 1 :=
  power_index_values_sum_to_one [("A", 2), ("B", 1), ("C", 1)] 3
    (by decide) (by decide) (by decide) (by decide)

/-! ### Rounding and lookup lemmas -/

theorem roundHalfEven_close (q : ℚ) : |((roundHalfEven q : ℤ) : ℚ) - q| ≤ 1 / 2 := by
  have hf1 : ((⌊q⌋ : ℤ) : ℚ) ≤ q := Int.floor_le q
  have hf2 : q < (⌊q⌋ : ℤ) + 1 := Int.lt_floor_add_one q
  unfold roundHalfEven
  by_cases h1 : q - (⌊q⌋ : ℚ) < 1 / 2
  · rw [if_pos h1, abs_le]
    constructor <;> linarith
  · rw [if_neg h1]
    by_cases h2 : q - (⌊q⌋ : ℚ) > 1 / 2
    · rw [if_pos h2, abs_le]
      push_cast
      constructor <;> linarith
    · rw [if_neg h2]
      by_cases h3 : ⌊q⌋ % 2 = 0
      · rw [if_pos h3, abs_le]
        constructor <;> linarith
      · rw [if_neg h3, abs_le]
        push_cast
        constructor <;> linarith

theorem pyRound1_close (q : ℚ) : |pyRound1 q - q| ≤ 1 / 20 := by
  unfold pyRound1
  have h := roundHalfEven_close (q * 10)
  rw [abs_le] at h ⊢
  constructor <;> · obtain ⟨ha, hb⟩ := h; linarith

theorem abs_sum_sub_sum_le {α : Type} (l : List α) (f g : α → ℚ) :
    |(l.map f).sum - (l.map g).sum| ≤ (l.map (fun x => |f x - g x|)).sum := by
  induction l with
  | nil => simp
  | cons a t ih =>
      simp only [List.map_cons, List.sum_cons]
      calc |f a + (t.map f).sum - (g a + (t.map g).sum)|
          = |(f a - g a) + ((t.map f).sum - (t.map g).sum)| := by ring_nf
        _ ≤ |f a - g a| + |(t.map f).sum - (t.map g).sum| := abs_add _ _
        _ ≤ |f a - g a| + (t.map (fun x => |f x - g x|)).sum := by linarith

theorem sum_le_length_mul {α : Type} (l : List α) (f : α → ℚ) (c : ℚ)
    (h : ∀ x ∈ l, f x ≤ c) : (l.map f).sum ≤ (l.length : ℚ) * c := by
  induction l with
  | nil => simp
  | cons a t ih =>
      simp only [List.map_cons, List.sum_cons, List.length_cons]
      have h1 := h a (List.mem_cons_self _ _)
      have h2 := ih (fun x hx => h x (List.mem_cons_of_mem _ hx))
      push_cast
      linarith

theorem sum_map_mul_const {α : Type} (l : List α) (f : α → ℚ) (c : ℚ) :
    (l.map (fun x => f x * c)).sum = (l.map f).sum * c := by
  induction l with
  | nil => simp
  | cons a t ih => simp [ih, add_mul]

theorem lookupQ_cons_self (x : String × ℚ) (rest : List (String × ℚ)) :
    lookupQ (x :: rest) x.1 = x.2 := by
  unfold lookupQ
  rw [List.find?_cons_of_pos _ (by simp)]
  rfl

theorem lookupQ_cons_ne (x : String × ℚ) (rest : List (String × ℚ)) (p : String)
    (h : p ≠ x.1) : lookupQ (x :: rest) p = lookupQ rest p := by
  unfold lookupQ
  rw [List.find?_cons_of_neg]
  simp only [beq_iff_eq]
  exact fun hE => h hE.symm

theorem lookupQ_map_self {l : List String} (val : String → ℚ) :
    l.Nodup → ∀ p ∈ l, lookupQ (l.map (fun q => (q, val q))) p = val p := by
  induction l with
  | nil => intro _ p hp; cases hp
  | cons a t ih =>
      intro hnd p hp
      simp only [List.map_cons]
      rcases List.mem_cons.mp hp with rfl | hmem
      · exact lookupQ_cons_self (p, val p) _
      · have hna : p ≠ a := by
          intro hE
          subst hE
          exact (List.nodup_cons.mp hnd).1 hmem
        rw [lookupQ_cons_ne _ _ _ hna]
        exact ih (List.nodup_cons.mp hnd).2 p hmem

theorem sum_lookup_keyval {seats : List (String × ℕ)} {l : List (String × ℚ)}
    {v : String → ℚ} (hnd : (seats.map Prod.fst).Nodup)
    (hv : l = (seats.map Prod.fst).map (fun p => (p, v p))) :
    (seats.map (fun e => lookupQ l e.1)).sum = (l.map Prod.snd).sum := by
  have h1 : seats.map (fun e => lookupQ l e.1) = seats.map (fun e => v e.1) := by
    apply List.map_congr_left
    intro e he
    rw [hv]
    exact lookupQ_map_self v hnd e.1 (List.mem_map_of_mem _ he)
  rw [h1, hv, List.map_map, List.map_map]
  rfl

theorem shapley_shubik_keyval (seats : List (String × ℕ)) (quota : ℤ) :
    ∃ v : String → ℚ,
      shapley_shubik seats quota = (seats.map Prod.fst).map (fun p => (p, v p)) := by
  unfold shapley_shubik
  by_cases h0 : (seats.map Prod.fst).length = 0
  · refine ⟨fun _ => 1, ?_⟩
    rw [if_pos h0, List.length_eq_zero.mp h0]
    rfl
  · by_cases h1 : (seats.map Prod.fst).length = 1
    · obtain ⟨p0, hp0⟩ := List.length_eq_one.mp h1
      refine ⟨fun _ => 1, ?_⟩
      rw [if_neg h0, if_pos h1, hp0]
      rfl
    · exact ⟨_, by rw [if_neg h0, if_neg h1]⟩

theorem banzhaf_keyval (seats : List (String × ℕ)) (quota : ℤ) :
    ∃ v : String → ℚ,
      banzhaf seats quota = (seats.map Prod.fst).map (fun p => (p, v p)) := by
  unfold banzhaf
  by_cases h0 : (seats.map Prod.fst).length = 0
  · refine ⟨fun _ => 1, ?_⟩
    rw [if_pos h0, List.length_eq_zero.mp h0]
    rfl
  · by_cases h1 : (seats.map Prod.fst).length = 1
    · obtain ⟨p0, hp0⟩ := List.length_eq_one.mp h1
      refine ⟨fun _ => 1, ?_⟩
      rw [if_neg h0, if_pos h1, hp0]
      rfl
    · exact ⟨_, by rw [if_neg h0, if_neg h1]⟩

/-- Summing per-party percentage fields: if the underlying index values
sum to 1, the percentage-scaled, 1-decimal-rounded fields sum to 100 up to
one half-unit of rounding (0.05) per party. -/
theorem rounded_pct_sum_close {seats : List (String × ℕ)} {l : List (String × ℚ)}
    {v : String → ℚ} (hnd : (seats.map Prod.fst).Nodup)
    (hv : l = (seats.map Prod.fst).map (fun p => (p, v p)))
    (hsum : (l.map Prod.snd).sum = 1) :
    |(seats.map (fun e => pyRound1 (lookupQ l e.1 * 100))).sum - 100| ≤
      (seats.length : ℚ) / 20 := by
  have hg : (seats.map (fun e => lookupQ l e.1 * 100)).sum = 100 := by
    rw [sum_map_mul_const, sum_lookup_keyval hnd hv, hsum]
    norm_num
  have hb : (seats.map (fun e =>
      |pyRound1 (lookupQ l e.1 * 100) - lookupQ l e.1 * 100|)).sum ≤
      (seats.length : ℚ) * (1 / 20) :=
    sum_le_length_mul _ _ _ (fun e _ => pyRound1_close _)
  calc |(seats.map (fun e => pyRound1 (lookupQ l e.1 * 100))).sum - 100|
      = |(seats.map (fun e => pyRound1 (lookupQ l e.1 * 100))).sum
          - (seats.map (fun e => lookupQ l e.1 * 100)).sum| := by rw [hg]
    _ ≤ (seats.map (fun e =>
          |pyRound1 (lookupQ l e.1 * 100) - lookupQ l e.1 * 100|)).sum :=
        abs_sum_sub_sum_le seats _ _
    _ ≤ (seats.length : ℚ) * (1 / 20) := hb
    _ = (seats.length : ℚ) / 20 := by ring

theorem roundHalfEven_intCast (n : ℤ) : roundHalfEven (n : ℚ) = n := by
  unfold roundHalfEven
  rw [Int.floor_intCast, if_pos]
  norm_num

theorem pyRound1_half_100 : pyRound1 ((1 : ℚ)/2 * 100) = 50 := by
  have h : ((1 : ℚ)/2 * 100) * 10 = ((500 : ℤ) : ℚ) := by norm_num
  unfold pyRound1
  rw [h, roundHalfEven_intCast]
  norm_num

/-- C2 counterexample. For the seat map `{A: 1, B: 1}` (positive seat
total), both shapley fields of the returned records are `50.0` (the index
0.5 scaled to percent and rounded), so they sum to 100 — not approximately
1: `|100 − 1| = 99` is far beyond any reasonable tolerance such as 1e-6. -/
theorem power_indices_sum_counterexample :
    ((power_indices [("A", 1), ("B", 1)]).map (fun r => r.shapley)).sum = 100 ∧
      ¬ (|((power_indices [("A", 1), ("B", 1)]).map (fun r => r.shapley)).sum - 1|
        ≤ 1 / 1000000) := by
  have hperm : ((power_indices [("A", 1), ("B", 1)]).map (fun r => r.shapley)).sum
      = ((power_indices_compute [("A", 1), ("B", 1)]).map (fun r => r.shapley)).sum :=
    ((sortedBy_perm _ _).map _).sum_eq
  have hq : piQuota [("A", 1), ("B", 1)] = 2 := by decide
  have hA : pivotCount [("A", 1), ("B", 1)] 2 ["A", "B"] "A" = 1 := by decide
  have hB : pivotCount [("A", 1), ("B", 1)] 2 ["A", "B"] "B" = 1 := by decide
  have hss : shapley_shubik [("A", 1), ("B", 1)] (piQuota [("A", 1), ("B", 1)])
      = [("A", (1 : ℚ)/2), ("B", (1 : ℚ)/2)] := by
    rw [hq]
    norm_num [shapley_shubik, hA, hB, Nat.factorial]
  have hlA : lookupQ [("A", (1 : ℚ)/2), ("B", (1 : ℚ)/2)] "A" = 1/2 :=
    lookupQ_cons_self ("A", (1 : ℚ)/2) _
  have hlB : lookupQ [("A", (1 : ℚ)/2), ("B", (1 : ℚ)/2)] "B" = 1/2 := by
    rw [lookupQ_cons_ne _ _ _ (by decide)]
    exact lookupQ_cons_self ("B", (1 : ℚ)/2) _
  have hsum : ((power_indices [("A", 1), ("B", 1)]).map (fun r => r.shapley)).sum
      = 100 := by
    rw [hperm]
    unfold power_indices_compute
    rw [if_neg (by decide)]
    simp only [List.map_cons, List.map_nil, hss, hlA, hlB]
    rw [pyRound1_half_100]
    norm_num
  refine ⟨hsum, ?_⟩
  rw [hsum]
  norm_num

/-- C2 amended: for every seat map with unique keys and positive seat
total, the `shapley` fields of the records returned by `power_indices`
sum to approximately **100**, not 1 — each field is the normalized index
scaled to percent and rounded to one decimal — and likewise the `banzhaf`
fields; the sums lie within `0.05 · (number of parties)` of 100. -/
theorem power_indices_fields_sum_approx_100 (seats : List (String × ℕ))
    (hnd : (seats.map Prod.fst).Nodup) (hpos : 0 < (seats.map Prod.snd).sum) :
    |((power_indices seats).map (fun r => r.shapley)).sum - 100| ≤
        (seats.length : ℚ) / 20 ∧
      |((power_indices seats).map (fun r => r.banzhaf)).sum - 100| ≤
        (seats.length : ℚ) / 20 := by
  have hne : seats ≠ [] := by
    intro hE
    subst hE
    simp at hpos
  have hq1 : 1 ≤ piQuota seats := by
    unfold piQuota
    have : 1 ≤ (seats.map Prod.snd).sum / 2 + 1 := by omega
    exact_mod_cast this
  have hq2 : piQuota seats ≤ (((seats.map Prod.snd).sum : ℕ) : ℤ) := by
    unfold piQuota
    have : (seats.map Prod.snd).sum / 2 + 1 ≤ (seats.map Prod.snd).sum := by omega
    exact_mod_cast this
  have hsumss : ((shapley_shubik seats (piQuota seats)).map Prod.snd).sum = 1 :=
    shapley_sum hnd hne hq1 hq2
  have hsumbz : ((banzhaf seats (piQuota seats)).map Prod.snd).sum = 1 :=
    banzhaf_sum hnd hne hq1 hq2
  obtain ⟨vs, hvs⟩ := shapley_shubik_keyval seats (piQuota seats)
  obtain ⟨vb, hvb⟩ := banzhaf_keyval seats (piQuota seats)
  have hpermS : ((power_indices seats).map (fun r => r.shapley)).sum
      = ((power_indices_compute seats).map (fun r => r.shapley)).sum :=
    ((sortedBy_perm _ _).map _).sum_eq
  have hpermB : ((power_indices seats).map (fun r => r.banzhaf)).sum
      = ((power_indices_compute seats).map (fun r => r.banzhaf)).sum :=
    ((sortedBy_perm _ _).map _).sum_eq
  have hfieldsS : (power_indices_compute seats).map (fun r => r.shapley)
      = seats.map (fun e =>
        pyRound1 (lookupQ (shapley_shubik seats (piQuota seats)) e.1 * 100)) := by
    unfold power_indices_compute
    rw [if_neg (by omega), List.map_map]
    rfl
  have hfieldsB : (power_indices_compute seats).map (fun r => r.banzhaf)
      = seats.map (fun e =>
        pyRound1 (lookupQ (banzhaf seats (piQuota seats)) e.1 * 100)) := by
    unfold power_indices_compute
    rw [if_neg (by omega), List.map_map]
    rfl
  constructor
  · rw [hpermS, hfieldsS]
    exact rounded_pct_sum_close hnd hvs hsumss
  · rw [hpermB, hfieldsB]
    exact rounded_pct_sum_close hnd hvb hsumbz

/-- Witness for the amended C2 theorem at the seat map `{A: 1, B: 1}`. -/
theorem power_indices_fields_sum_approx_100_witness :
    |((power_indices [("A", 1), ("B", 1)]).map (fun r => r.shapley)).sum - 100| ≤
        (([("A", 1), ("B", 1)] : List (String × ℕ)).length : ℚ) / 20 ∧
      |((power_indices [("A", 1), ("B", 1)]).map (fun r => r.banzhaf)).sum - 100| ≤
        (([("A", 1), ("B", 1)] : List (String × ℕ)).length : ℚ) / 20 :=
  power_indices_fields_sum_approx_100 [("A", 1), ("B", 1)] (by decide) (by decide)

/-! ### Banzhaf double-counting lemmas -/

theorem swingTerm_split (seats : List (String × ℕ)) (quota : ℤ) (p : String)
    (coal : List String) :
    swingTerm seats quota p coal
      = memSwingTerm seats quota p coal + nonmemSwingTerm seats quota p coal := by
  simp only [swingTerm, memSwingTerm, nonmemSwingTerm]
  by_cases h : p ∈ coal
  · rw [if_pos h, if_pos h, if_pos h, Nat.add_zero]
  · rw [if_neg h, if_neg h, if_neg h, Nat.zero_add]

theorem swingCount_split (seats : List (String × ℕ)) (quota : ℤ) (parties : List String)
    (p : String) :
    swingCount seats quota parties p
      = memSwingCount seats quota parties p + nonmemSwingCount seats quota parties p := by
  unfold swingCount memSwingCount nonmemSwingCount
  rw [← sum_map_add]
  apply congrArg
  apply List.map_congr_left
  intro coal _
  exact swingTerm_split seats quota p coal

theorem memSwingTerm_cons_self (seats : List (String × ℕ)) (quota : ℤ) (p : String)
    (coal : List String) (hnp : p ∉ coal) :
    memSwingTerm seats quota p (p :: coal) = nonmemSwingTerm seats quota p coal := by
  simp only [memSwingTerm, nonmemSwingTerm, List.map_cons, List.sum_cons]
  rw [if_pos (List.mem_cons_self p coal), if_neg hnp]
  refine if_congr ?_ rfl rfl
  push_cast
  constructor <;> intro h <;> omega

theorem nonmemSwingTerm_cons_self (seats : List (String × ℕ)) (quota : ℤ) (p : String)
    (coal : List String) :
    nonmemSwingTerm seats quota p (p :: coal) = 0 := by
  simp only [nonmemSwingTerm]
  rw [if_pos (List.mem_cons_self p coal)]

theorem memSwingTerm_cons_ne (seats : List (String × ℕ)) (quota : ℤ) (p a : String)
    (coal : List String) (hpa : p ≠ a) :
    memSwingTerm seats quota p (a :: coal)
      = memSwingTerm seats (quota - (seatsOf seats a : ℤ)) p coal := by
  simp only [memSwingTerm, List.map_cons, List.sum_cons]
  have hmem : (p ∈ a :: coal) ↔ (p ∈ coal) := by
    constructor
    · intro h
      rcases List.mem_cons.mp h with h2 | h2
      · exact absurd h2 hpa
      · exact h2
    · exact List.mem_cons_of_mem a
  by_cases h : p ∈ coal
  · rw [if_pos (hmem.mpr h), if_pos h]
    refine if_congr ?_ rfl rfl
    push_cast
    constructor <;> intro hc <;> omega
  · rw [if_neg (fun hc => h (hmem.mp hc)), if_neg h]

theorem nonmemSwingTerm_cons_ne (seats : List (String × ℕ)) (quota : ℤ) (p a : String)
    (coal : List String) (hpa : p ≠ a) :
    nonmemSwingTerm seats quota p (a :: coal)
      = nonmemSwingTerm seats (quota - (seatsOf seats a : ℤ)) p coal := by
  simp only [nonmemSwingTerm, List.map_cons, List.sum_cons]
  have hmem : (p ∈ a :: coal) ↔ (p ∈ coal) := by
    constructor
    · intro h
      rcases List.mem_cons.mp h with h2 | h2
      · exact absurd h2 hpa
      · exact h2
    · exact List.mem_cons_of_mem a
  by_cases h : p ∈ coal
  · rw [if_pos (hmem.mpr h), if_pos h]
  · rw [if_neg (fun hc => h (hmem.mp hc)), if_neg h]
    refine if_congr ?_ rfl rfl
    push_cast
    constructor <;> intro hc <;> omega

theorem memSwingTerm_not_mem_zero (seats : List (String × ℕ)) (quota : ℤ) (p : String)
    (coal : List String) (hnp : p ∉ coal) :
    memSwingTerm seats quota p coal = 0 := by
  simp only [memSwingTerm]
  rw [if_neg hnp]

/-- The mirror bijection `S ↦ S \ {p}`: over all subsets of a
duplicate-free list containing `p`, membership swings and non-membership
swings are in one-to-one correspondence, so their totals agree. -/
theorem memSwing_eq_nonmemSwing (seats : List (String × ℕ)) (p : String) :
    ∀ (l : List String), p ∈ l → l.Nodup → ∀ quota : ℤ,
      ((subsets l).map (memSwingTerm seats quota p)).sum
        = ((subsets l).map (nonmemSwingTerm seats quota p)).sum := by
  intro l
  induction l with
  | nil => intro hp; cases hp
  | cons a t ih =>
      intro hp hnd quota
      have hsub : subsets (a :: t) = subsets t ++ (subsets t).map (a :: ·) := rfl
      rw [hsub, List.map_append, List.map_append, List.sum_append, List.sum_append,
        List.map_map, List.map_map]
      rcases List.mem_cons.mp hp with rfl | hpt
      · have hpt2 : p ∉ t := (List.nodup_cons.mp hnd).1
        have h1 : ((subsets t).map (memSwingTerm seats quota p)).sum = 0 := by
          apply List.sum_eq_zero
          intro x hx
          obtain ⟨coal, hcoal, rfl⟩ := List.mem_map.mp hx
          exact memSwingTerm_not_mem_zero seats quota p coal
            (fun hc => hpt2 (subsets_subset hcoal p hc))
        have h2 : (subsets t).map (memSwingTerm seats quota p ∘ (p :: ·))
            = (subsets t).map (nonmemSwingTerm seats quota p) := by
          apply List.map_congr_left
          intro coal hcoal
          exact memSwingTerm_cons_self seats quota p coal
            (fun hc => hpt2 (subsets_subset hcoal p hc))
        have h3 : ((subsets t).map (nonmemSwingTerm seats quota p ∘ (p :: ·))).sum = 0 := by
          apply List.sum_eq_zero
          intro x hx
          obtain ⟨coal, hcoal, rfl⟩ := List.mem_map.mp hx
          exact nonmemSwingTerm_cons_self seats quota p coal
        rw [h1, h2, h3]
        omega
      · have hpa : p ≠ a := by
          intro hE
          subst hE
          exact (List.nodup_cons.mp hnd).1 hpt
        have hnd2 := (List.nodup_cons.mp hnd).2
        have h1 : (subsets t).map (memSwingTerm seats quota p ∘ (a :: ·))
            = (subsets t).map (memSwingTerm seats (quota - (seatsOf seats a : ℤ)) p) := by
          apply List.map_congr_left
          intro coal _
          exact memSwingTerm_cons_ne seats quota p a coal hpa
        have h2 : (subsets t).map (nonmemSwingTerm seats quota p ∘ (a :: ·))
            = (subsets t).map (nonmemSwingTerm seats (quota - (seatsOf seats a : ℤ)) p) := by
          apply List.map_congr_left
          intro coal _
          exact nonmemSwingTerm_cons_ne seats quota p a coal hpa
        rw [h1, h2, ih hpt hnd2 quota, ih hpt hnd2 (quota - (seatsOf seats a : ℤ))]

theorem swingCount_eq_two_mul (seats : List (String × ℕ)) {parties : List String}
    (hnd : parties.Nodup) {p : String} (hp : p ∈ parties) (quota : ℤ) :
    swingCount seats quota parties p = 2 * memSwingCount seats quota parties p := by
  rw [swingCount_split]
  have h := memSwing_eq_nonmemSwing seats p parties hp hnd quota
  unfold memSwingCount nonmemSwingCount
  omega

theorem sum_map_two_mul {α : Type} (l : List α) (f : α → ℕ) :
    (l.map (fun x => 2 * f x)).sum = 2 * (l.map f).sum := by
  have h1 : l.map (fun x => 2 * f x) = l.map (fun x => f x + f x) := by
    apply List.map_congr_left
    intro x _
    omega
  rw [h1, sum_map_add]
  omega

theorem banzhaf_eq_memOnly {seats : List (String × ℕ)} (quota : ℤ)
    (hnd : (seats.map Prod.fst).Nodup) :
    banzhaf seats quota = banzhafMemOnly seats quota := by
  unfold banzhaf banzhafMemOnly
  by_cases h0 : (seats.map Prod.fst).length = 0
  · rw [if_pos h0, if_pos h0]
  · by_cases h1 : (seats.map Prod.fst).length = 1
    · rw [if_neg h0, if_pos h1, if_neg h0, if_pos h1]
    · rw [if_neg h0, if_neg h1, if_neg h0, if_neg h1]
      have htot : swingTotal seats quota (seats.map Prod.fst)
          = 2 * memSwingTotal seats quota (seats.map Prod.fst) := by
        unfold swingTotal memSwingTotal
        rw [List.map_congr_left (fun q hq => swingCount_eq_two_mul seats hnd hq quota),
          sum_map_two_mul]
      apply List.map_congr_left
      intro p hp
      have hdp := swingCount_eq_two_mul seats hnd hp quota
      simp only [Prod.mk.injEq]
      refine ⟨trivial, ?_⟩
      by_cases hz : memSwingTotal seats quota (seats.map Prod.fst) = 0
      · have hle : memSwingCount seats quota (seats.map Prod.fst) p
            ≤ memSwingTotal seats quota (seats.map Prod.fst) :=
          List.le_sum_of_mem (List.mem_map_of_mem _ hp)
        have hmz : memSwingCount seats quota (seats.map Prod.fst) p = 0 := by omega
        have hsz : swingCount seats quota (seats.map Prod.fst) p = 0 := by omega
        rw [hsz, hmz]
        simp
      · have hswz : swingTotal seats quota (seats.map Prod.fst) ≠ 0 := by omega
        have hor1 : swingTotalOr1 seats quota (seats.map Prod.fst)
            = swingTotal seats quota (seats.map Prod.fst) := by
          unfold swingTotalOr1
          rw [if_neg hswz]
        have hor2 : memSwingTotalOr1 seats quota (seats.map Prod.fst)
            = memSwingTotal seats quota (seats.map Prod.fst) := by
          unfold memSwingTotalOr1
          rw [if_neg hz]
        rw [hor1, hor2, htot, hdp]
        push_cast
        rw [mul_div_mul_left _ _ (two_ne_zero)]

/-- C10: in `banzhaf`, each party's swing count is exactly twice its
membership-swing count — every winning coalition S containing p whose
win breaks without p is mirrored one-to-one by `S \ \x7bp\x7d` under the
non-membership clause — and consequently `banzhaf` returns the same
normalized map as the membership-only variant. -/
theorem banzhaf_double_counting (seats : List (String × ℕ)) (quota : ℤ)
    (hnd : (seats.map Prod.fst).Nodup) (hlen : 2 ≤ (seats.map Prod.fst).length) :
    (∀ p ∈ seats.map Prod.fst,
        swingCount seats quota (seats.map Prod.fst) p
          = 2 * memSwingCount seats quota (seats.map Prod.fst) p) ∧
      banzhaf seats quota = banzhafMemOnly seats quota :=
  ⟨fun _ hp => swingCount_eq_two_mul seats hnd hp quota, banzhaf_eq_memOnly quota hnd⟩

/-- Witness for the C10 theorem at the seat map `{A: 2, B: 1}` with
quota 2. -/
theorem banzhaf_double_counting_witness :
    swingCount [("A", 2), ("B", 1)] 2 ["A", "B"] "A"
        = 2 * memSwingCount [("A", 2), ("B", 1)] 2 ["A", "B"] "A" ∧
      banzhaf [("A", 2), ("B", 1)] 2 = banzhafMemOnly [("A", 2), ("B", 1)] 2 :=
  ⟨(banzhaf_double_counting [("A", 2), ("B", 1)] 2 (by decide) (by decide)).1 "A"
      (by decide),
    (banzhaf_double_counting [("A", 2), ("B", 1)] 2 (by decide) (by decide)).2⟩

/-! ### Agreement matrix lemmas -/

theorem bothDecided_swap : ∀ (pv1 pv2 : List (Option Bool)),
    bothDecided pv1 pv2 = (bothDecided pv2 pv1).map Prod.swap
  | [], pv2 => by
      unfold bothDecided
      simp
  | a :: t, [] => by
      unfold bothDecided
      simp
  | a :: t, b :: u => by
      have ih := bothDecided_swap t u
      unfold bothDecided at ih ⊢
      rcases a with _ | x <;> rcases b with _ | y <;>
        simp only [List.zip_cons_cons, List.filterMap_cons] <;>
        simp [ih]

theorem agreementCell_symm (d : List Decision) (p1 p2 : String) :
    agreementCell d p1 p2 = agreementCell d p2 p1 := by
  unfold agreementCell
  rw [bothDecided_swap (partyVotes d p1) (partyVotes d p2)]
  by_cases hB : bothDecided (partyVotes d p2) (partyVotes d p1) = []
  · rw [hB]
    simp
  · rw [if_neg (by simpa using hB), if_neg hB, List.length_map, List.countP_map]
    have hc : ((bothDecided (partyVotes d p2) (partyVotes d p1)).countP
        ((fun (ab : Bool × Bool) => ab.1 == ab.2) ∘ Prod.swap))
        = ((bothDecided (partyVotes d p2) (partyVotes d p1)).countP
          (fun (ab : Bool × Bool) => ab.1 == ab.2)) := by
      apply List.countP_congr
      intro ab _
      rcases ab with ⟨x, y⟩
      cases x <;> cases y <;> rfl
    rw [hc]

theorem agreementValue_diag (d : List Decision) (p : String) :
    agreementValue d p p = 100 := by
  unfold agreementValue
  rw [if_pos (by simp)]

theorem agreementValue_symm (d : List Decision) (p1 p2 : String) :
    agreementValue d p1 p2 = agreementValue d p2 p1 := by
  unfold agreementValue
  by_cases h : p1 = p2
  · subst h
    rfl
  · rw [if_neg (by simpa using h), if_neg (by simpa using fun hE => h hE.symm)]
    exact agreementCell_symm d p1 p2

/-- C9: the matrix built by `agreement_matrix` is exactly the table of
`agreementValue` over the party list; every diagonal cell is `100.0`;
for distinct parties the cell is `0.0` when the two parties share no vote
on which both have a decision and otherwise the share of matching
decisions times 100 rounded to one decimal; and the matrix is symmetric. -/
theorem agreement_matrix_spec (parties : List String) (decisions : List Decision) :
    (∀ pr ∈ agreement_matrix parties decisions, ∀ cell ∈ pr.2,
        cell.2 = agreementValue decisions pr.1 cell.1) ∧
      (∀ p : String, agreementValue decisions p p = 100) ∧
      (∀ p1 p2 : String, p1 ≠ p2 →
        (bothDecided (partyVotes decisions p1) (partyVotes decisions p2) = [] →
          agreementValue decisions p1 p2 = 0) ∧
        (bothDecided (partyVotes decisions p1) (partyVotes decisions p2) ≠ [] →
          agreementValue decisions p1 p2 = pyRound1
            ((((bothDecided (partyVotes decisions p1) (partyVotes decisions p2)).countP
                (fun ab => ab.1 == ab.2) : ℕ) : ℚ) /
              (((bothDecided (partyVotes decisions p1)
                (partyVotes decisions p2)).length : ℕ) : ℚ) * 100))) ∧
      (∀ p1 p2 : String, agreementValue decisions p1 p2
        = agreementValue decisions p2 p1) := by
  refine ⟨?_, agreementValue_diag decisions, ?_, agreementValue_symm decisions⟩
  · intro pr hpr cell hcell
    obtain ⟨p1, _, rfl⟩ := List.mem_map.mp hpr
    obtain ⟨p2, _, rfl⟩ := List.mem_map.mp hcell
    rfl
  · intro p1 p2 hne
    have hv : agreementValue decisions p1 p2 = agreementCell decisions p1 p2 := by
      unfold agreementValue
      rw [if_neg (by simpa using hne)]
    constructor
    · intro hB
      rw [hv]
      unfold agreementCell
      rw [if_pos hB]
    · intro hB
      rw [hv]
      unfold agreementCell
      rw [if_neg hB]

/-- Witness for the C9 theorem at a concrete two-party decision list:
diagonal 100, symmetry, and the non-empty-shared-votes formula. -/
theorem agreement_matrix_spec_witness :
    agreementValue [⟨1, "A", "YES"⟩, ⟨1, "B", "NO"⟩] "A" "A" = 100 ∧
      agreementValue [⟨1, "A", "YES"⟩, ⟨1, "B", "NO"⟩] "A" "B"
        = agreementValue [⟨1, "A", "YES"⟩, ⟨1, "B", "NO"⟩] "B" "A" ∧
      agreementValue [⟨1, "A", "YES"⟩, ⟨1, "B", "NO"⟩] "A" "B" = pyRound1
        ((((bothDecided (partyVotes [⟨1, "A", "YES"⟩, ⟨1, "B", "NO"⟩] "A")
            (partyVotes [⟨1, "A", "YES"⟩, ⟨1, "B", "NO"⟩] "B")).countP
            (fun ab => ab.1 == ab.2) : ℕ) : ℚ) /
          (((bothDecided (partyVotes [⟨1, "A", "YES"⟩, ⟨1, "B", "NO"⟩] "A")
            (partyVotes [⟨1, "A", "YES"⟩, ⟨1, "B", "NO"⟩] "B")).length : ℕ) : ℚ) * 100) :=
  ⟨(agreement_matrix_spec ["A", "B"] [⟨1, "A", "YES"⟩, ⟨1, "B", "NO"⟩]).2.1 "A",
    (agreement_matrix_spec ["A", "B"] [⟨1, "A", "YES"⟩, ⟨1, "B", "NO"⟩]).2.2.2 "A" "B",
    ((agreement_matrix_spec ["A", "B"] [⟨1, "A", "YES"⟩, ⟨1, "B", "NO"⟩]).2.2.1 "A" "B"
      (by decide)).2 (by decide)⟩

end SejmAnalyzer
